import Mathlib

/-!
# fxpratt: a Pratt (top-down operator precedence) parser and its evaluator

Shallow embedding of `desc.go` (the parser: `match`, `precTab`, `leftTab`,
`unaryTab`, `Nud`, `Led`, `bindPow`, `Expr`, `Prog`, `Parse`) and of
`tree.go` (the tree `Expr` and `Eval`).

* A `*Expr` pointer is a value of `Fxpratt.Expr`: `nil`, or a node holding the
  token and the two children, in the field order of the Go struct
  (`tok`, `ERight`, `ELeft`).
* The lexer `*fxlex.Lexer` is the list of items it still has to deliver;
  `Peek` looks at the head, `Lex` drops it, the exhausted list peeks as the
  end-of-input token for ever.
* Every Go function returning `(expr, err)` returns a `Res`: both components
  are kept, because `Expr` can return a tree together with an error.
* The recursion `Expr / Nud / Led` and the `for` loop of `Expr` are structural
  on a fuel counter; `none` means the counter ran out. `Parser.run` supplies
  `2 * length + 1`, which `Parser.run_terminates` shows to be enough.
* The method `Eval` takes the `float64` operations as a parameter
  (`Float64Ops`), so what is proved of it holds of any arithmetic; `none` is
  its panic. Where a concrete value is needed, `binary64Ops` gives the
  operators of the language their IEEE 754 binary64 meaning.
-/

namespace Fxpratt

/-- Modelled from the spec: the token kinds of the lexer package `fxlex`, which
is imported by `desc.go` and `tree.go` but is not part of the sources. The
constructors are the `fxlex` constants the sources name; the rune keys of the
tables of `desc.go` are identified with them as the tests require
(`'+'` is `TokPlus`, `'!'` is `TokNeg`, `'^'` is `TokXor`, `'('` is `TokLPar`
and so on). `other` stands for any further kind the lexer may deliver. -/
inductive TokType
  | RuneEOF
  | TokLPar
  | TokRPar
  | TokOr
  | TokAnd
  | TokNeg
  | TokXor
  | TokLT
  | TokGT
  | TokGTE
  | TokLTE
  | TokPlus
  | TokMinus
  | TokTimes
  | TokDivide
  | TokRem
  | TokPow
  | TokIntLit
  | TokBoolLit
  | other (code : Nat)
  deriving DecidableEq

/-- Modelled from the spec: an `fxlex.Token`, of which the sources use
`GetTokType()` and `GetValue()` only. -/
structure Token where
  tokType : TokType
  value : Int
  deriving DecidableEq

/-- The errors `desc.go` creates with `errors.New`, one constructor per message,
and the errors of the token source, passed on as they come. -/
inductive Err
  /-- an error returned by `Peek` -/
  | lex (code : Nat)
  /-- "unmatched parenthesis" -/
  | unmatchedParen
  /-- "%s  is not unary", with the kind of the token -/
  | notUnary (k : TokType)
  /-- "unary operator without operand" -/
  | unaryNoOperand
  /-- "missing operand for %s", with the kind of the token -/
  | missingOperand (k : TokType)
  /-- "empty expression" -/
  | emptyExpr
  /-- "need TokEOF, got %s", with the kind of the token found -/
  | needEOF (k : TokType)
  deriving DecidableEq

/-- One thing the token source delivers: a token, or a lexical error. -/
inductive LexItem
  | tok (t : Token)
  | bad (code : Nat)
  deriving DecidableEq

/-- Modelled from the spec: the token source, as what is left of the input.
`Peek` does not advance and is idempotent; `Lex` advances by one item. -/
abbrev Lexer := List LexItem

/-- The end-of-input token. -/
def eofTok : Token := ⟨.RuneEOF, 0⟩

/-- The call `p.l.Peek()`. -/
def Lexer.Peek : Lexer → Except Nat Token
  | [] => .ok eofTok
  | .tok t :: _ => .ok t
  | .bad c :: _ => .error c

/-- The call `p.l.Lex()`, whose result the parser always ignores. -/
def Lexer.Lex (l : Lexer) : Lexer := l.tail

/-- A token stream without lexical errors. -/
def toks (ts : List Token) : Lexer := ts.map LexItem.tok

/-- The type `*Expr` of `tree.go`: the nil pointer, or a node with the fields
`tok`, `ERight`, `ELeft` in the order of the struct. -/
inductive Expr
  | nil
  | node (tok : Token) (ERight : Expr) (ELeft : Expr)
  deriving DecidableEq

/-- The function `NewExpr`. -/
def NewExpr (tok : Token) : Expr := .node tok .nil .nil

/-- The `float64` operations `Eval` applies, taken as a parameter: the
arithmetic of the host language and of its `math` package is not part of the
sources. -/
structure Float64Ops (F : Type) where
  /-- the constant `0.0` -/
  zero : F
  /-- the constant `1.0` -/
  one : F
  /-- the conversion `float64(tok.GetValue())` -/
  ofInt : Int → F
  sub : F → F → F
  add : F → F → F
  mul : F → F → F
  div : F → F → F
  /-- the function `math.Mod` -/
  mod : F → F → F
  /-- the function `math.Pow` -/
  pow : F → F → F
  gt : F → F → Bool
  lt : F → F → Bool
  ge : F → F → Bool
  le : F → F → Bool
  /-- the comparison `!=` -/
  ne : F → F → Bool

/-- The switch of `Eval` on the kind of the node, given the values `lV` and
`rV`; `none` is the `panic("Bad subtree")` of the default case. -/
def evalTok {F : Type} (ops : Float64Ops F) (tok : Token) (lV rV : F) : Option F :=
  match tok.tokType with
  | .TokMinus => some (ops.sub lV rV)
  | .TokPlus => some (ops.add lV rV)
  | .TokTimes => some (ops.mul lV rV)
  | .TokDivide => some (ops.div lV rV)
  | .TokRem => some (ops.mod lV rV)
  | .TokPow => some (ops.pow lV rV)
  | .TokGT => some (if ops.gt lV rV then ops.one else ops.zero)
  | .TokLT => some (if ops.lt lV rV then ops.one else ops.zero)
  | .TokGTE => some (if ops.ge lV rV then ops.one else ops.zero)
  | .TokLTE => some (if ops.le lV rV then ops.one else ops.zero)
  | .TokOr => some (if ops.ne lV ops.zero || ops.ne rV ops.zero then ops.one else ops.zero)
  | .TokAnd => some (if ops.ne lV ops.zero && ops.ne rV ops.zero then ops.one else ops.zero)
  | .TokNeg => some (if !(ops.ne rV ops.zero) then ops.one else ops.zero)
  | .TokXor =>
    some (if (ops.ne lV ops.zero) != (ops.ne rV ops.zero) then ops.one else ops.zero)
  | .TokIntLit => some (ops.ofInt tok.value)
  | .TokBoolLit => some (ops.ofInt tok.value)
  | _ => none

/-- The method `Eval`; `none` is the panic. The right child is evaluated
first, then the left one; a nil child leaves its variable at `0.0`, the value
`Eval` returns for nil. -/
def Expr.Eval {F : Type} (ops : Float64Ops F) : Expr → Option F
  | .nil => some ops.zero
  | .node tok ERight ELeft =>
    match Expr.Eval ops ERight with
    | none => none
    | some rV =>
      match Expr.Eval ops ELeft with
      | none => none
      | some lV => evalTok ops tok lV rV


/-- What a parsing function hands back: the returned tree, the returned error
and the lexer as the call left it. -/
structure Res where
  expr : Expr
  err : Option Err
  l : Lexer
  deriving DecidableEq

/-- The map `precTab`. -/
def precTab : TokType → Option Int
  | .TokRPar => some 1
  | .TokOr => some 10
  | .TokAnd => some 10
  | .TokNeg => some 10
  | .TokXor => some 10
  | .TokLT => some 10
  | .TokGT => some 10
  | .TokGTE => some 10
  | .TokLTE => some 10
  | .TokPlus => some 20
  | .TokMinus => some 20
  | .TokTimes => some 30
  | .TokDivide => some 30
  | .TokRem => some 30
  | .TokPow => some 40
  | .TokLPar => some 50
  | _ => none

/-- The map `leftTab`; an absent key reads as `false`. -/
def leftTab : TokType → Bool
  | .TokPow => true
  | _ => false

/-- The map `unaryTab`; an absent key reads as `false`. -/
def unaryTab : TokType → Bool
  | .TokPlus => true
  | .TokMinus => true
  | .TokLPar => true
  | .TokNeg => true
  | .TokXor => true
  | _ => false

/-- The constant `defRbp`. -/
def defRbp : Int := 0

/-- The function `bindPow`. -/
def bindPow (tok : Token) : Int :=
  match precTab tok.tokType with
  | some rbp => rbp
  | none => defRbp

namespace Parser

/-- The method `match`: the token peeked, the error, whether it matched, and
the lexer afterwards. On a failing peek Go returns the zero `Token`, which no
caller reads; it is `other 0` with value 0 here. -/
def matchTok (tT : TokType) (l : Lexer) : Token × Option Err × Bool × Lexer :=
  match Lexer.Peek l with
  | .error c => (⟨.other 0, 0⟩, some (.lex c), false, l)
  | .ok tok =>
    if tok.tokType ≠ tT then (tok, none, false, l)
    else (tok, none, true, Lexer.Lex l)

mutual

/-- The method `Nud`, called with the lexer already past `tok`. -/
def Nud (fuel : Nat) (tok : Token) (l : Lexer) : Option Res :=
  match fuel with
  | 0 => none
  | n + 1 =>
    if tok.tokType = .TokLPar then
      -- `rbp` still has its zero value here
      match Expr n 0 l with
      | none => none
      | some r =>
        match r.err with
        | some e => some ⟨.nil, some e, r.l⟩
        | none =>
          match matchTok .TokRPar r.l with
          | (_, some e, _, l1) => some ⟨.nil, some e, l1⟩
          | (_, none, false, l1) => some ⟨.nil, some .unmatchedParen, l1⟩
          | (_, none, true, l1) => some ⟨r.expr, none, l1⟩
    else
      if bindPow tok ≠ defRbp then
        if unaryTab tok.tokType = false then
          some ⟨.nil, some (.notUnary tok.tokType), l⟩
        else
          -- `rExpr, err = p.Expr(rbp)`: only `rExpr` is looked at afterwards
          match Expr n (bindPow tok) l with
          | none => none
          | some r =>
            match r.expr with
            | .nil => some ⟨.nil, some .unaryNoOperand, r.l⟩
            | .node t a b => some ⟨.node tok (.node t a b) .nil, none, r.l⟩
      else some ⟨NewExpr tok, none, l⟩

/-- The method `Led`, called with the lexer already past `tok`. -/
def Led (fuel : Nat) (left : Fxpratt.Expr) (tok : Token) (l : Lexer) : Option Res :=
  match fuel with
  | 0 => none
  | n + 1 =>
    match Expr n (if leftTab tok.tokType then bindPow tok - 1 else bindPow tok) l with
    | none => none
    | some r =>
      match r.err with
      | some e => some ⟨.nil, some e, r.l⟩
      | none =>
        match r.expr with
        | .nil => some ⟨.nil, some (.missingOperand tok.tokType), r.l⟩
        | .node t a b => some ⟨.node tok (.node t a b) left, none, r.l⟩

/-- The method `Expr` up to its `for` loop. -/
def Expr (fuel : Nat) (rbp : Int) (l : Lexer) : Option Res :=
  match fuel with
  | 0 => none
  | n + 1 =>
    match Lexer.Peek l with
    | .error c => some ⟨.nil, some (.lex c), l⟩
    | .ok tok =>
      if tok.tokType = .RuneEOF then some ⟨.nil, none, l⟩
      else
        match Nud n tok (Lexer.Lex l) with
        | none => none
        | some r =>
          match r.err with
          | some e => some ⟨.nil, some e, r.l⟩
          | none => ExprLoop n rbp r.expr r.expr r.l

/-- The `for` loop of `Expr`, entered with the values of the variables `left`
and `expr`. -/
def ExprLoop (fuel : Nat) (rbp : Int) (left expr : Fxpratt.Expr) (l : Lexer) : Option Res :=
  match fuel with
  | 0 => none
  | n + 1 =>
    match Lexer.Peek l with
    | .error c => some ⟨expr, some (.lex c), l⟩
    | .ok tok =>
      if tok.tokType = .RuneEOF ∨ tok.tokType = .TokRPar then some ⟨expr, none, l⟩
      else if bindPow tok ≤ rbp then some ⟨left, none, l⟩
      else
        match Led n left tok (Lexer.Lex l) with
        | none => none
        | some r =>
          match r.err with
          | some e => some ⟨expr, some e, r.l⟩
          | none => ExprLoop n rbp r.expr r.expr r.l

end

/-- The method `Prog`. -/
def Prog (fuel : Nat) (l : Lexer) : Option Res :=
  match Expr fuel (defRbp - 1) l with
  | none => none
  | some r =>
    match r.err with
    | some e => some ⟨.nil, some e, r.l⟩
    | none =>
      match r.expr with
      | .nil => some ⟨.nil, some .emptyExpr, r.l⟩
      | .node t a b =>
        match matchTok .RuneEOF r.l with
        | (_, some e, _, l1) => some ⟨.nil, some e, l1⟩
        | (t1, none, false, l1) => some ⟨.nil, some (.needEOF t1.tokType), l1⟩
        | (_, none, true, l1) => some ⟨.node t a b, none, l1⟩

/-- The method `Parse`. -/
def Parse (fuel : Nat) (l : Lexer) : Option Res :=
  match Prog fuel l with
  | none => none
  | some r =>
    match r.err with
    | some e => some ⟨.nil, some e, r.l⟩
    | none => some ⟨r.expr, none, r.l⟩

/-- The method `Parse` on a whole input, with fuel enough for it. -/
def run (l : Lexer) : Option Res := Parse (2 * l.length + 1) l

end Parser

/-- The literal kinds: integer and boolean. -/
def isLiteral (k : TokType) : Bool :=
  k = .TokIntLit || k = .TokBoolLit

/-- The operator kinds: an entry in `precTab` other than a parenthesis. -/
def isOperator (k : TokType) : Bool :=
  (precTab k).isSome && k != .TokLPar && k != .TokRPar

/-- How many tokens of a kind a token list holds. -/
def countKind (k : TokType) (ts : List Token) : Nat :=
  (ts.filter (fun t => t.tokType = k)).length

/-- The tokens of a tree in order: left child, node, right child. -/
def Expr.inorder : Expr → List Token
  | .nil => []
  | .node tok ERight ELeft => Expr.inorder ELeft ++ tok :: Expr.inorder ERight

/-- The node-shape invariant of the data model at every node: a literal node
has no child, any other node has a right child. -/
def Expr.shapeOK : Expr → Bool
  | .nil => true
  | .node tok ERight ELeft =>
    (if isLiteral tok.tokType then ERight = .nil && ELeft = .nil else ERight != .nil)
      && Expr.shapeOK ERight && Expr.shapeOK ELeft

/-- The token list `x p1 y1 p2 y2 ...`: a first operand, then operator and
operand pairs. -/
def opChain (x : Token) : List (Token × Token) → List Token
  | [] => [x]
  | (p, y) :: rest => x :: p :: opChain y rest

/-- The fully right-nested tree over `opChain x ps`: `x p1 (y1 p2 (y2 ...))`. -/
def rightNest (x : Token) : List (Token × Token) → Expr
  | [] => NewExpr x
  | (p, y) :: rest => .node p (rightNest y rest) (NewExpr x)

/-- The relational kinds: `>`, `<`, `>=`, `<=`. -/
def isRelational (k : TokType) : Bool :=
  k = .TokGT || k = .TokLT || k = .TokGTE || k = .TokLTE

/-- The logical kinds: `|`, `&`, `^`, `!`. -/
def isLogical (k : TokType) : Bool :=
  k = .TokOr || k = .TokAnd || k = .TokXor || k = .TokNeg

/-- Whether the comparison a relational kind stands for holds between a left
and a right value. -/
def relHolds {F : Type} (ops : Float64Ops F) (k : TokType) (lV rV : F) : Bool :=
  match k with
  | .TokGT => ops.gt lV rV
  | .TokLT => ops.lt lV rV
  | .TokGTE => ops.ge lV rV
  | .TokLTE => ops.le lV rV
  | _ => false

/-- A model of the `float64` values of the host language, IEEE 754 binary64:
not-a-number (one value, payloads are not told apart), the two infinities, and
the finite values as a sign and a magnitude, which keeps the two zeros apart.
`undet` stands for a value this model does not determine. -/
inductive F64
  | nan
  | inf (neg : Bool)
  | fin (neg : Bool) (mag : ℚ)
  | undet
  deriving DecidableEq

/-- The power `2 ^ e` as a rational. -/
def pow2 (e : Int) : ℚ :=
  if 0 ≤ e then mkRat (2 ^ e.toNat : Nat) 1 else mkRat 1 (2 ^ (-e).toNat : Nat)

/-- The floor of the binary logarithm of a positive rational. -/
def ilog2 (q : ℚ) : Int :=
  if q < pow2 ((Nat.log2 q.num.natAbs : Int) - (Nat.log2 q.den : Int)) then
    (Nat.log2 q.num.natAbs : Int) - (Nat.log2 q.den : Int) - 1
  else (Nat.log2 q.num.natAbs : Int) - (Nat.log2 q.den : Int)

/-- The integer nearest to a rational `q ≥ 0`, a tie going to the even one. -/
def roundEven (q : ℚ) : Nat :=
  if 2 * (q.num.natAbs % q.den) < q.den then q.num.natAbs / q.den
  else if q.den < 2 * (q.num.natAbs % q.den) then q.num.natAbs / q.den + 1
  else if (q.num.natAbs / q.den) % 2 = 0 then q.num.natAbs / q.den
  else q.num.natAbs / q.den + 1

/-- The binary64 value nearest to `q ≥ 0`, ties to even, with the sign `neg`:
53 bits of precision, the smallest unit `2 ^ (-1074)`, and infinity from
`2 ^ 1024` on. -/
def F64.round (neg : Bool) (q : ℚ) : F64 :=
  if q = 0 then .fin neg 0
  else if pow2 1024 ≤ (roundEven (q / pow2 (max (ilog2 q - 52) (-1074))) : ℚ) *
      pow2 (max (ilog2 q - 52) (-1074)) then .inf neg
  else .fin neg ((roundEven (q / pow2 (max (ilog2 q - 52) (-1074))) : ℚ) *
      pow2 (max (ilog2 q - 52) (-1074)))

/-- The rational a finite value stands for. -/
def signed (neg : Bool) (mag : ℚ) : ℚ := if neg then -mag else mag

/-- The conversion `float64(i)` of an integer. -/
def F64.ofInt (i : Int) : F64 := F64.round (decide (i < 0)) (i.natAbs : ℚ)

/-- The change of sign. -/
def F64.neg : F64 → F64
  | .nan => .nan
  | .inf a => .inf (!a)
  | .fin a x => .fin (!a) x
  | .undet => .undet

/-- The operator `+`: the exact sum, rounded; a sum that is exactly zero is
`-0` when both operands are negative and `+0` otherwise. -/
def F64.add : F64 → F64 → F64
  | .undet, _ => .undet
  | _, .undet => .undet
  | .nan, _ => .nan
  | _, .nan => .nan
  | .inf a, .inf b => if a = b then .inf a else .nan
  | .inf a, .fin _ _ => .inf a
  | .fin _ _, .inf b => .inf b
  | .fin a x, .fin b y =>
    if signed a x + signed b y = 0 then .fin (a && b) 0
    else F64.round (decide (signed a x + signed b y < 0)) |signed a x + signed b y|

/-- The operator `-`: the sum with the operand of opposite sign. -/
def F64.sub (x y : F64) : F64 := F64.add x (F64.neg y)

/-- The operator `*`: the exact product, rounded; the sign is the exclusive or
of the signs, also for a zero. -/
def F64.mul : F64 → F64 → F64
  | .undet, _ => .undet
  | _, .undet => .undet
  | .nan, _ => .nan
  | _, .nan => .nan
  | .inf a, .inf b => .inf (xor a b)
  | .inf a, .fin b y => if y = 0 then .nan else .inf (xor a b)
  | .fin a x, .inf b => if x = 0 then .nan else .inf (xor a b)
  | .fin a x, .fin b y => F64.round (xor a b) (x * y)

/-- The operator `/`: the exact quotient, rounded; a nonzero value over zero is
an infinity, zero over zero is not-a-number. -/
def F64.div : F64 → F64 → F64
  | .undet, _ => .undet
  | _, .undet => .undet
  | .nan, _ => .nan
  | _, .nan => .nan
  | .inf _, .inf _ => .nan
  | .inf a, .fin b _ => .inf (xor a b)
  | .fin a _, .inf b => .fin (xor a b) 0
  | .fin a x, .fin b y =>
    if y = 0 then (if x = 0 then .nan else .inf (xor a b))
    else F64.round (xor a b) (x / y)

/-- The operator `<`; false when an operand is not-a-number. -/
def F64.lt : F64 → F64 → Bool
  | .fin a x, .fin b y => decide (signed a x < signed b y)
  | .inf true, .fin _ _ => true
  | .inf true, .inf false => true
  | .fin _ _, .inf false => true
  | _, _ => false

/-- The operator `==`; the two zeros are equal, not-a-number equals nothing. -/
def F64.eq : F64 → F64 → Bool
  | .fin a x, .fin b y => decide (signed a x = signed b y)
  | .inf a, .inf b => a == b
  | _, _ => false

/-- The operator `!=`. -/
def F64.ne : F64 → F64 → Bool
  | .undet, _ => false
  | _, .undet => false
  | x, y => !(F64.eq x y)

/-- The operations of `float64`, to evaluate `Eval` on concrete trees: the
operators of the language and the conversion from an integer follow IEEE 754
with rounding to nearest, ties to even. The functions `math.Mod` and
`math.Pow` of the library are not modelled and give `undet`, as does every
operator on an `undet` operand; a comparison with an `undet` operand is not
determined either and, having to be a Boolean, is false. -/
def binary64Ops : Float64Ops F64 where
  zero := .fin false 0
  one := .fin false 1
  ofInt := F64.ofInt
  sub := F64.sub
  add := F64.add
  mul := F64.mul
  div := F64.div
  mod := fun _ _ => .undet
  pow := fun _ _ => .undet
  gt := fun x y => F64.lt y x
  lt := F64.lt
  ge := fun x y => F64.lt y x || F64.eq x y
  le := fun x y => F64.lt x y || F64.eq x y
  ne := F64.ne

/-- The prefix operators: a key of `unaryTab` other than the left parenthesis,
which `Nud` handles before it looks at the table. -/
def isUnaryOp (k : TokType) : Bool :=
  unaryTab k && k != .TokLPar

/-- A token list without its parentheses and end-of-input markers. -/
def stripped (ts : List Token) : List Token :=
  ts.filter (fun t => t.tokType != .TokLPar && t.tokType != .TokRPar && t.tokType != .RuneEOF)

/-- The items `pre` that a call consumed, taking the lexer from `l` to `l2`,
are tokens and none of them is the end-of-input marker. -/
def ConsumedNoEOF (l l2 : Lexer) : Prop :=
  ∃ pre : List LexItem, l = pre ++ l2 ∧ ∀ it ∈ pre, ∃ t, it = .tok t ∧ t.tokType ≠ .RuneEOF

/-! ## Fuel: monotone, and enough -/

namespace Parser

theorem fuel_succ (n : Nat) :
    (∀ tok l r, Nud n tok l = some r → Nud (n + 1) tok l = some r) ∧
    (∀ left tok l r, Led n left tok l = some r → Led (n + 1) left tok l = some r) ∧
    (∀ rbp l r, Expr n rbp l = some r → Expr (n + 1) rbp l = some r) ∧
    (∀ rbp left e l r, ExprLoop n rbp left e l = some r →
      ExprLoop (n + 1) rbp left e l = some r) := by
  induction n with
  | zero =>
    refine ⟨?_, ?_, ?_, ?_⟩ <;> intros <;> simp_all [Nud, Led, Expr, ExprLoop]
  | succ n ih =>
    obtain ⟨ihN, ihL, ihE, ihP⟩ := ih
    refine ⟨?_, ?_, ?_, ?_⟩
    · intro tok l r h
      rw [Nud] at h ⊢
      by_cases hp : tok.tokType = .TokLPar
      · rw [if_pos hp] at h ⊢
        cases hE : Expr n 0 l with
        | none => simp [hE] at h
        | some r0 => rw [ihE _ _ _ hE]; rw [hE] at h; exact h
      · rw [if_neg hp] at h ⊢
        by_cases hb : bindPow tok ≠ defRbp
        · rw [if_pos hb] at h ⊢
          by_cases hu : unaryTab tok.tokType = false
          · rw [if_pos hu] at h ⊢; exact h
          · rw [if_neg hu] at h ⊢
            cases hE : Expr n (bindPow tok) l with
            | none => simp [hE] at h
            | some r0 => rw [ihE _ _ _ hE]; rw [hE] at h; exact h
        · rw [if_neg hb] at h ⊢; exact h
    · intro left tok l r h
      rw [Led] at h ⊢
      cases hE : Expr n (if leftTab tok.tokType then bindPow tok - 1 else bindPow tok) l with
      | none => simp [hE] at h
      | some r0 => rw [ihE _ _ _ hE]; rw [hE] at h; exact h
    · intro rbp l r h
      rw [Expr] at h ⊢
      cases hpk : Lexer.Peek l with
      | error c => simp only [hpk] at h ⊢; exact h
      | ok tok =>
        simp only [hpk] at h ⊢
        by_cases he : tok.tokType = .RuneEOF
        · rw [if_pos he] at h ⊢; exact h
        · rw [if_neg he] at h ⊢
          cases hN : Nud n tok (Lexer.Lex l) with
          | none => simp [hN] at h
          | some r0 =>
            rw [ihN _ _ _ hN]; rw [hN] at h
            cases hr : r0.err with
            | some e => simp only [hr] at h ⊢; exact h
            | none => simp only [hr] at h ⊢; exact ihP _ _ _ _ _ h
    · intro rbp left e l r h
      rw [ExprLoop] at h ⊢
      cases hpk : Lexer.Peek l with
      | error c => simp only [hpk] at h ⊢; exact h
      | ok tok =>
        simp only [hpk] at h ⊢
        by_cases he : tok.tokType = .RuneEOF ∨ tok.tokType = .TokRPar
        · rw [if_pos he] at h ⊢; exact h
        · rw [if_neg he] at h ⊢
          by_cases hb : bindPow tok ≤ rbp
          · rw [if_pos hb] at h ⊢; exact h
          · rw [if_neg hb] at h ⊢
            cases hN : Led n left tok (Lexer.Lex l) with
            | none => simp [hN] at h
            | some r0 =>
              rw [ihL _ _ _ _ hN]; rw [hN] at h
              cases hr : r0.err with
              | some e => simp only [hr] at h ⊢; exact h
              | none => simp only [hr] at h ⊢; exact ihP _ _ _ _ _ h

theorem Lex_length_le (l : Lexer) : (Lexer.Lex l).length ≤ l.length := by
  cases l <;> simp [Lexer.Lex]

theorem Lex_length_of_peek {l : Lexer} {tok : Token} (h : Lexer.Peek l = .ok tok)
    (hne : tok.tokType ≠ .RuneEOF) : (Lexer.Lex l).length + 1 = l.length := by
  cases l with
  | nil => simp [Lexer.Peek, eofTok] at h; subst h; simp at hne
  | cons a t => simp [Lexer.Lex]

theorem matchTok_length_le (k : TokType) (l : Lexer) :
    (matchTok k l).2.2.2.length ≤ l.length := by
  unfold matchTok
  cases Lexer.Peek l with
  | error c => simp
  | ok tok =>
    by_cases hk : tok.tokType ≠ k
    · simp [hk]
    · simp only [hk, if_false]; exact Lex_length_le l

theorem length_le (n : Nat) :
    (∀ tok l r, Nud n tok l = some r → r.l.length ≤ l.length) ∧
    (∀ left tok l r, Led n left tok l = some r → r.l.length ≤ l.length) ∧
    (∀ rbp l r, Expr n rbp l = some r → r.l.length ≤ l.length) ∧
    (∀ rbp left e l r, ExprLoop n rbp left e l = some r → r.l.length ≤ l.length) := by
  induction n with
  | zero =>
    refine ⟨?_, ?_, ?_, ?_⟩ <;> intros <;> simp_all [Nud, Led, Expr, ExprLoop]
  | succ n ih =>
    obtain ⟨ihN, ihL, ihE, ihP⟩ := ih
    refine ⟨?_, ?_, ?_, ?_⟩
    · intro tok l r h
      rw [Nud] at h
      split at h
      · split at h
        · simp at h
        · rename_i r0 hE
          have h0 := ihE _ _ _ hE
          split at h
          · simp at h; subst h; exact h0
          · have hm := matchTok_length_le .TokRPar r0.l
            split at h <;> rename_i hmt <;> rw [hmt] at hm <;> simp at h <;> subst h <;>
              simp at hm ⊢ <;> omega
      · split at h
        · split at h
          · simp at h; subst h; simp
          · split at h
            · simp at h
            · rename_i r0 hE
              have h0 := ihE _ _ _ hE
              split at h <;> simp at h <;> subst h <;> exact h0
        · simp at h; subst h; simp
    · intro left tok l r h
      rw [Led] at h
      split at h
      · simp at h
      · rename_i r0 hE
        have h0 := ihE _ _ _ hE
        split at h
        · simp at h; subst h; exact h0
        · split at h <;> simp at h <;> subst h <;> exact h0
    · intro rbp l r h
      rw [Expr] at h
      split at h
      · simp at h; subst h; simp
      · rename_i tok hpk
        split at h
        · simp at h; subst h; simp
        · rename_i hne
          have hl := Lex_length_of_peek hpk hne
          split at h
          · simp at h
          · rename_i r0 hN
            have h0 := ihN _ _ _ hN
            split at h
            · simp at h; subst h; simp; omega
            · have h1 := ihP _ _ _ _ _ h; omega
    · intro rbp left e l r h
      rw [ExprLoop] at h
      split at h
      · simp at h; subst h; simp
      · rename_i tok hpk
        split at h
        · simp at h; subst h; simp
        · rename_i hne
          have hl := Lex_length_of_peek hpk (fun hh => hne (Or.inl hh))
          split at h
          · simp at h; subst h; simp
          · split at h
            · simp at h
            · rename_i r0 hN
              have h0 := ihL _ _ _ _ hN
              split at h
              · simp at h; subst h; simp; omega
              · have h1 := ihP _ _ _ _ _ h; omega

theorem fuel_enough (n : Nat) :
    (∀ tok l, 2 * l.length + 2 ≤ n → ∃ r, Nud n tok l = some r) ∧
    (∀ left tok l, 2 * l.length + 2 ≤ n → ∃ r, Led n left tok l = some r) ∧
    (∀ rbp l, 2 * l.length + 1 ≤ n → ∃ r, Expr n rbp l = some r) ∧
    (∀ rbp left e l, 2 * l.length + 1 ≤ n → ∃ r, ExprLoop n rbp left e l = some r) := by
  induction n with
  | zero =>
    refine ⟨?_, ?_, ?_, ?_⟩ <;> intros <;> omega
  | succ n ih =>
    obtain ⟨ihN, ihL, ihE, ihP⟩ := ih
    refine ⟨?_, ?_, ?_, ?_⟩
    · intro tok l hn
      rw [Nud]
      split
      · obtain ⟨r0, hE⟩ := ihE 0 l (by omega)
        rw [hE]
        dsimp only
        split
        · exact ⟨_, rfl⟩
        · split <;> exact ⟨_, rfl⟩
      · split
        · split
          · exact ⟨_, rfl⟩
          · obtain ⟨r0, hE⟩ := ihE (bindPow tok) l (by omega)
            rw [hE]
            dsimp only
            split <;> exact ⟨_, rfl⟩
        · exact ⟨_, rfl⟩
    · intro left tok l hn
      rw [Led]
      obtain ⟨r0, hE⟩ :=
        ihE (if leftTab tok.tokType then bindPow tok - 1 else bindPow tok) l (by omega)
      rw [hE]
      dsimp only
      split
      · exact ⟨_, rfl⟩
      · split <;> exact ⟨_, rfl⟩
    · intro rbp l hn
      rw [Expr]
      split
      · exact ⟨_, rfl⟩
      · rename_i tok hpk
        split
        · exact ⟨_, rfl⟩
        · rename_i hne
          have hl := Lex_length_of_peek hpk hne
          obtain ⟨r0, hN⟩ := ihN tok (Lexer.Lex l) (by omega)
          have h0 := (length_le n).1 _ _ _ hN
          rw [hN]
          dsimp only
          split
          · exact ⟨_, rfl⟩
          · exact ihP _ _ _ _ (by omega)
    · intro rbp left e l hn
      rw [ExprLoop]
      split
      · exact ⟨_, rfl⟩
      · rename_i tok hpk
        split
        · exact ⟨_, rfl⟩
        · rename_i hne
          have hl := Lex_length_of_peek hpk (fun hh => hne (Or.inl hh))
          split
          · exact ⟨_, rfl⟩
          · obtain ⟨r0, hN⟩ := ihL left tok (Lexer.Lex l) (by omega)
            have h0 := (length_le n).2.1 _ _ _ _ hN
            rw [hN]
            dsimp only
            split
            · exact ⟨_, rfl⟩
            · exact ihP _ _ _ _ (by omega)

theorem Expr_fuel_mono {n m : Nat} (hnm : n ≤ m) {rbp : Int} {l : Lexer} {r : Res}
    (h : Expr n rbp l = some r) : Expr m rbp l = some r := by
  induction hnm with
  | refl => exact h
  | step _ ih => exact (fuel_succ _).2.2.1 _ _ _ ih

theorem Prog_fuel_mono {n m : Nat} (hnm : n ≤ m) {l : Lexer} {r : Res}
    (h : Prog n l = some r) : Prog m l = some r := by
  unfold Prog at h ⊢
  cases hE : Expr n (defRbp - 1) l with
  | none => simp [hE] at h
  | some r0 => rw [Expr_fuel_mono hnm hE]; rw [hE] at h; exact h

theorem Parse_fuel_mono {n m : Nat} (hnm : n ≤ m) {l : Lexer} {r : Res}
    (h : Parse n l = some r) : Parse m l = some r := by
  unfold Parse at h ⊢
  cases hE : Prog n l with
  | none => simp [hE] at h
  | some r0 => rw [Prog_fuel_mono hnm hE]; rw [hE] at h; exact h

theorem Prog_terminates (l : Lexer) : ∃ r, Prog (2 * l.length + 1) l = some r := by
  obtain ⟨r0, hE⟩ := (fuel_enough (2 * l.length + 1)).2.2.1 (defRbp - 1) l (le_refl _)
  unfold Prog
  rw [hE]
  dsimp only
  split
  · exact ⟨_, rfl⟩
  · split
    · exact ⟨_, rfl⟩
    · split <;> exact ⟨_, rfl⟩

/-- With `2 * length + 1` units of fuel the counter never runs out. -/
theorem run_terminates (l : Lexer) : ∃ r, run l = some r := by
  obtain ⟨r0, hP⟩ := Prog_terminates l
  unfold run Parse
  rw [hP]
  dsimp only
  split <;> exact ⟨_, rfl⟩

/-- A result reached with some amount of fuel is the result of `run`. -/
theorem run_eq_of_fuel (n : Nat) {l : Lexer} {r : Res} (h : Parse n l = some r) :
    run l = some r := by
  obtain ⟨r1, h1⟩ := run_terminates l
  have ha := Parse_fuel_mono (Nat.le_max_left n (2 * l.length + 1)) h
  have hb := Parse_fuel_mono (Nat.le_max_right n (2 * l.length + 1)) h1
  rw [ha] at hb
  rw [h1, ← Option.some.inj hb]

/-! ## One step of each function, and what the functions return -/

theorem isLiteral_bindPow {t : Token} (h : isLiteral t.tokType = true) :
    bindPow t = 0 ∧ t.tokType ≠ .TokLPar ∧ t.tokType ≠ .RuneEOF ∧ t.tokType ≠ .TokRPar := by
  obtain ⟨k, v⟩ := t
  cases k <;> simp [isLiteral] at h <;> simp [bindPow, precTab, defRbp]

theorem isOperator_bindPow {t : Token} (h : isOperator t.tokType = true) :
    10 ≤ bindPow t ∧ bindPow t ≤ 40 ∧ t.tokType ≠ .TokLPar ∧ t.tokType ≠ .RuneEOF ∧
      t.tokType ≠ .TokRPar ∧ (leftTab t.tokType = true → bindPow t = 40) := by
  obtain ⟨k, v⟩ := t
  cases k <;> simp [isOperator, precTab] at h <;> simp [bindPow, precTab, defRbp, leftTab]

/-- The method `Expr` on a literal: the literal becomes a leaf and the loop starts. -/
theorem Expr_literal (n : Nat) (rbp : Int) (x : Token) (l : Lexer)
    (hx : isLiteral x.tokType = true) :
    Expr (n + 2) rbp (.tok x :: l) = ExprLoop (n + 1) rbp (NewExpr x) (NewExpr x) l := by
  obtain ⟨hb, h1, h2, -⟩ := isLiteral_bindPow hx
  rw [Expr]
  simp only [Lexer.Peek, Lexer.Lex, List.tail_cons]
  rw [if_neg h2, Nud, if_neg h1, if_neg (by simpa [defRbp] using hb)]

/-- The loop of `Expr` stops at the end of the input. -/
theorem ExprLoop_nil (n : Nat) (rbp : Int) (left e : Fxpratt.Expr) :
    ExprLoop (n + 1) rbp left e [] = some ⟨e, none, []⟩ := by
  rw [ExprLoop]
  simp [Lexer.Peek, eofTok]

/-- The loop of `Expr` stops at a right parenthesis. -/
theorem ExprLoop_rpar (n : Nat) (rbp : Int) (left e : Fxpratt.Expr) (t : Token) (l : Lexer)
    (ht : t.tokType = .TokRPar) :
    ExprLoop (n + 1) rbp left e (.tok t :: l) = some ⟨e, none, .tok t :: l⟩ := by
  rw [ExprLoop]
  simp [Lexer.Peek, ht]

/-- The loop of `Expr` stops at a token that does not bind more than `rbp`. -/
theorem ExprLoop_low (n : Nat) (rbp : Int) (e : Fxpratt.Expr) (t : Token) (l : Lexer)
    (ht : bindPow t ≤ rbp) :
    ExprLoop (n + 1) rbp e e (.tok t :: l) = some ⟨e, none, .tok t :: l⟩ := by
  rw [ExprLoop]
  simp only [Lexer.Peek]
  split
  · rfl
  · simp [ht]

/-- The loop of `Expr` takes an operator that binds more than `rbp`, once the
right operand is parsed. -/
theorem ExprLoop_op (n : Nat) (rbp : Int) (left e : Fxpratt.Expr) (t : Token) (l l1 : Lexer)
    (t1 : Token) (a b : Fxpratt.Expr)
    (h1 : t.tokType ≠ .RuneEOF) (h2 : t.tokType ≠ .TokRPar) (hb : rbp < bindPow t)
    (hE : Expr n (if leftTab t.tokType then bindPow t - 1 else bindPow t) l =
      some ⟨.node t1 a b, none, l1⟩) :
    ExprLoop (n + 2) rbp left e (.tok t :: l) =
      ExprLoop (n + 1) rbp (.node t (.node t1 a b) left) (.node t (.node t1 a b) left) l1 := by
  rw [ExprLoop]
  simp only [Lexer.Peek, Lexer.Lex, List.tail_cons]
  rw [if_neg (by simp [h1, h2]), if_neg (by omega), Led, hE]

/-- The method `Expr` at the end of the input returns neither tree nor error. -/
theorem Expr_eof (n : Nat) (rbp : Int) (l : Lexer) (tok : Token)
    (hpk : Lexer.Peek l = .ok tok) (hk : tok.tokType = .RuneEOF) :
    Expr (n + 1) rbp l = some ⟨.nil, none, l⟩ := by
  rw [Expr]
  simp only [hpk]
  rw [if_pos hk]

/-- The method `Expr` on a left parenthesis: the inner expression, then the loop. -/
theorem Expr_lpar (n : Nat) (rbp : Int) (t rp : Token) (l l1 : Lexer) (e : Fxpratt.Expr)
    (ht : t.tokType = .TokLPar) (hrp : rp.tokType = .TokRPar)
    (hE : Expr n 0 l = some ⟨e, none, .tok rp :: l1⟩) :
    Expr (n + 2) rbp (.tok t :: l) = ExprLoop (n + 1) rbp e e l1 := by
  rw [Expr]
  simp only [Lexer.Peek, Lexer.Lex, List.tail_cons]
  rw [if_neg (by simp [ht]), Nud, if_pos ht, hE]
  simp [matchTok, Lexer.Peek, hrp, Lexer.Lex]

/-- The methods `Prog` and `Parse` after `Expr` returned a tree at the end of the input. -/
theorem Parse_of_Expr (n : Nat) (l : Lexer) (t : Token) (a b : Fxpratt.Expr)
    (hE : Expr n (-1) l = some ⟨.node t a b, none, []⟩) :
    Parse n l = some ⟨.node t a b, none, []⟩ := by
  have h : Expr n (defRbp - 1) l = some ⟨.node t a b, none, []⟩ := hE
  simp [Parse, Prog, h, matchTok, Lexer.Peek, eofTok, Lexer.Lex]

theorem matchTok_true {k : TokType} {l l1 : Lexer} {t : Token} {e : Option Err}
    (h : matchTok k l = (t, e, true, l1)) :
    Lexer.Peek l = .ok t ∧ t.tokType = k ∧ l1 = Lexer.Lex l ∧ e = none := by
  unfold matchTok at h
  split at h
  · simp at h
  · rename_i tok hpk
    split at h
    · simp at h
    · rename_i hk
      simp at h hk
      obtain ⟨h1, h2, h3⟩ := h
      subst h1
      exact ⟨hpk, hk, h3.symm, h2.symm⟩

theorem matchTok_err {k : TokType} {l l1 : Lexer} {t : Token} {b : Bool} {e : Err}
    (h : matchTok k l = (t, some e, b, l1)) : ∃ c, e = .lex c := by
  unfold matchTok at h
  split at h
  · simp at h; exact ⟨_, h.2.1.symm⟩
  · split at h <;> simp at h

/-- What the parsing functions return: never the error "empty expression";
`Nud` and `Led` return a tree whenever they return no error, the loop of `Expr`
does so when it was entered with one, and `Expr` returns neither tree nor error
only at the end of the input, which it leaves untouched. -/
theorem result_inv (n : Nat) :
    (∀ tok l r, Nud n tok l = some r →
      r.err ≠ some .emptyExpr ∧ (r.err = none → r.expr ≠ .nil)) ∧
    (∀ left tok l r, Led n left tok l = some r →
      r.err ≠ some .emptyExpr ∧ (r.err = none → r.expr ≠ .nil)) ∧
    (∀ rbp l r, Expr n rbp l = some r →
      r.err ≠ some .emptyExpr ∧ (r.err = none → r.expr = .nil →
        r.l = l ∧ ∃ tok, Lexer.Peek l = .ok tok ∧ tok.tokType = .RuneEOF)) ∧
    (∀ rbp left e l r, ExprLoop n rbp left e l = some r →
      r.err ≠ some .emptyExpr ∧ (left ≠ .nil → e ≠ .nil → r.err = none → r.expr ≠ .nil)) := by
  induction n with
  | zero =>
    refine ⟨?_, ?_, ?_, ?_⟩ <;> intros <;> simp_all [Nud, Led, Expr, ExprLoop]
  | succ n ih =>
    obtain ⟨ihN, ihL, ihE, ihP⟩ := ih
    refine ⟨?_, ?_, ?_, ?_⟩
    · intro tok l r h
      rw [Nud] at h
      split at h
      · split at h
        · simp at h
        · rename_i r0 hE
          obtain ⟨h0, h1⟩ := ihE _ _ _ hE
          split at h
          · rename_i e he
            simp at h; subst h
            simp only [he] at h0
            simpa using h0
          · rename_i he
            split at h
            · rename_i hm
              obtain ⟨c, rfl⟩ := matchTok_err hm
              simp at h; subst h; simp
            · simp at h; subst h; simp
            · rename_i hm
              obtain ⟨hpk, hk, -, -⟩ := matchTok_true hm
              simp at h; subst h
              refine ⟨by simp, fun _ hnil => ?_⟩
              obtain ⟨hl, tok1, hpk1, hk1⟩ := h1 he hnil
              rw [hl, hpk1] at hpk
              simp at hpk; subst hpk
              rw [hk1] at hk
              simp at hk
      · split at h
        · split at h
          · simp at h; subst h; simp
          · split at h
            · simp at h
            · split at h <;> simp at h <;> subst h <;> simp
        · simp at h; subst h; simp [NewExpr]
    · intro left tok l r h
      rw [Led] at h
      split at h
      · simp at h
      · rename_i r0 hE
        obtain ⟨h0, -⟩ := ihE _ _ _ hE
        split at h
        · rename_i e he
          simp at h; subst h
          simp only [he] at h0
          simpa using h0
        · split at h <;> simp at h <;> subst h <;> simp
    · intro rbp l r h
      rw [Expr] at h
      split at h
      · simp at h; subst h; simp
      · rename_i tok hpk
        split at h
        · rename_i heof
          simp at h; subst h
          exact ⟨by simp, fun _ _ => ⟨rfl, tok, hpk, heof⟩⟩
        · split at h
          · simp at h
          · rename_i r0 hN
            obtain ⟨h0, h1⟩ := ihN _ _ _ hN
            split at h
            · rename_i e he
              simp at h; subst h
              simp only [he] at h0
              simpa using h0
            · rename_i he
              obtain ⟨h2, h3⟩ := ihP _ _ _ _ _ h
              exact ⟨h2, fun hr hnil => absurd hnil (h3 (h1 he) (h1 he) hr)⟩
    · intro rbp left e l r h
      rw [ExprLoop] at h
      split at h
      · simp at h; subst h; simp
      · split at h
        · simp at h; subst h; simp
        · split at h
          · simp at h; subst h; simp; intro hl _; exact hl
          · split at h
            · simp at h
            · rename_i r0 hN
              obtain ⟨h0, h1⟩ := ihL _ _ _ _ hN
              split at h
              · rename_i e1 he
                simp at h; subst h
                simp only [he] at h0
                simpa using h0
              · rename_i he
                obtain ⟨h2, h3⟩ := ihP _ _ _ _ _ h
                exact ⟨h2, fun _ _ hr => h3 (h1 he) (h1 he) hr⟩

/-- The ways `Prog` returns, in the order of its `return` statements. -/
theorem Prog_cases {n : Nat} {l : Lexer} {r : Res} (h : Prog n l = some r) :
    ∃ r0, Expr n (defRbp - 1) l = some r0 ∧
      ((∃ e, r0.err = some e ∧ r = ⟨.nil, some e, r0.l⟩) ∨
       (r0.err = none ∧ r0.expr = .nil ∧ r = ⟨.nil, some .emptyExpr, r0.l⟩) ∨
       (r0.err = none ∧ r0.expr ≠ .nil ∧ ∃ c, r = ⟨.nil, some (.lex c), r0.l⟩) ∨
       (r0.err = none ∧ r0.expr ≠ .nil ∧ ∃ t, Lexer.Peek r0.l = .ok t ∧
          t.tokType ≠ .RuneEOF ∧ r = ⟨.nil, some (.needEOF t.tokType), r0.l⟩) ∨
       (r0.err = none ∧ r0.expr ≠ .nil ∧ ∃ t, Lexer.Peek r0.l = .ok t ∧
          t.tokType = .RuneEOF ∧ r = ⟨r0.expr, none, Lexer.Lex r0.l⟩)) := by
  unfold Prog at h
  cases hE : Expr n (defRbp - 1) l with
  | none => simp [hE] at h
  | some r0 =>
    refine ⟨r0, rfl, ?_⟩
    rw [hE] at h
    dsimp only at h
    cases he : r0.err with
    | some e =>
      simp only [he] at h
      exact Or.inl ⟨e, rfl, (Option.some.inj h).symm⟩
    | none =>
      simp only [he] at h
      cases hx : r0.expr with
      | nil =>
        simp only [hx] at h
        exact Or.inr (Or.inl ⟨rfl, rfl, (Option.some.inj h).symm⟩)
      | node t a b =>
        simp only [hx] at h
        unfold matchTok at h
        cases hpk : Lexer.Peek r0.l with
        | error c =>
          simp only [hpk] at h
          exact Or.inr (Or.inr (Or.inl ⟨rfl, by simp, c, (Option.some.inj h).symm⟩))
        | ok t1 =>
          simp only [hpk] at h
          by_cases hk : t1.tokType = .RuneEOF
          · rw [if_neg (by simp [hk])] at h
            refine Or.inr (Or.inr (Or.inr (Or.inr ⟨rfl, by simp, t1, rfl, hk, ?_⟩)))
            exact (Option.some.inj h).symm
          · rw [if_pos hk] at h
            refine Or.inr (Or.inr (Or.inr (Or.inl ⟨rfl, by simp, t1, rfl, hk, ?_⟩)))
            exact (Option.some.inj h).symm

/-- The method `Parse` returns what `Prog` returns. -/
theorem Parse_eq_Prog (n : Nat) (l : Lexer) : Parse n l = Prog n l := by
  unfold Parse
  cases hP : Prog n l with
  | none => rfl
  | some r =>
    obtain ⟨r0, -, h⟩ := Prog_cases hP
    rcases h with ⟨e, -, rfl⟩ | ⟨-, -, rfl⟩ | ⟨-, -, c, rfl⟩ | ⟨-, -, t, -, -, rfl⟩ |
      ⟨-, -, t, -, -, rfl⟩ <;> rfl

theorem rightNest_node (x : Token) (ps : List (Token × Token)) :
    ∃ t a b, rightNest x ps = .node t a b := by
  cases ps with
  | nil => exact ⟨_, _, _, rfl⟩
  | cons p ps => exact ⟨_, _, _, rfl⟩

/-- A chain of literals joined by `**` parses to the right-nested tree, at any
right binding power below that of `**`, given enough fuel. -/
theorem Expr_powChain (ps : List (Token × Token)) :
    ∀ (x : Token) (rbp : Int), isLiteral x.tokType = true →
      (∀ p ∈ ps, p.1.tokType = .TokPow ∧ isLiteral p.2.tokType = true) → rbp < 40 →
      ∃ N, ∀ n, N ≤ n →
        Expr n rbp (toks (opChain x ps)) = some ⟨rightNest x ps, none, []⟩ := by
  induction ps with
  | nil =>
    intro x rbp hx _ _
    refine ⟨2, fun n hn => ?_⟩
    obtain ⟨m, rfl⟩ : ∃ m, n = m + 2 := ⟨n - 2, by omega⟩
    simp only [opChain, toks, List.map]
    rw [Expr_literal m _ _ _ hx, ExprLoop_nil]
    rfl
  | cons p ps ih =>
    intro x rbp hx hps hrbp
    obtain ⟨p, y⟩ := p
    have hp : p.tokType = .TokPow ∧ isLiteral y.tokType = true :=
      hps (p, y) (List.mem_cons_self _ _)
    obtain ⟨N, hN⟩ := ih y 39 hp.2 (fun q hq => hps q (List.mem_cons_of_mem _ hq)) (by omega)
    refine ⟨N + 3, fun n hn => ?_⟩
    obtain ⟨m, rfl⟩ : ∃ m, n = m + 3 := ⟨n - 3, by omega⟩
    obtain ⟨t, a, b, hnode⟩ := rightNest_node y ps
    have hbp : bindPow p = 40 := by
      simp [bindPow, hp.1, precTab]
    have hE : Expr m (if leftTab p.tokType then bindPow p - 1 else bindPow p)
        (toks (opChain y ps)) = some ⟨.node t a b, none, []⟩ := by
      rw [hp.1, hbp, ← hnode]
      exact hN m (by omega)
    simp only [opChain, toks, List.map]
    rw [Expr_literal (m + 1) _ _ _ hx]
    have hstep := ExprLoop_op m rbp (NewExpr x) (NewExpr x) p (toks (opChain y ps)) [] t a b
      (by simp [hp.1]) (by simp [hp.1]) (by omega) hE
    simp only [toks] at hstep
    rw [hstep, ExprLoop_nil, rightNest, hnode]

end Parser

/-! ## The claims -/

/-- C1 (fails on the code). The stream `- 3 *` ends in the operator `*`, and
Parse returns the tree `-(3)` with no error: the error "missing operand" that
`Led` raises for `*` reaches `Nud` together with the tree `3`, and `Nud`
looks at the tree only. -/
theorem trailing_operator_accepted :
    isOperator TokType.TokTimes = true ∧
    Parser.run (toks [⟨.TokMinus, 0⟩, ⟨.TokIntLit, 3⟩, ⟨.TokTimes, 0⟩]) =
      some ⟨.node ⟨.TokMinus, 0⟩ (NewExpr ⟨.TokIntLit, 3⟩) .nil, none, []⟩ := by
  decide

/-- C2 (fails on the code). The streams `- 3 * (` and `- 3 * )` hold one
parenthesis without its partner, and Parse returns the tree `-(3)` with no
error for both: the errors "unmatched parenthesis" and "is not unary" reach
`Nud` together with the tree `3`, and `Nud` looks at the tree only. -/
theorem unbalanced_parens_accepted :
    (countKind .TokLPar [⟨.TokMinus, 0⟩, ⟨.TokIntLit, 3⟩, ⟨.TokTimes, 0⟩, ⟨.TokLPar, 0⟩] ≠
      countKind .TokRPar [⟨.TokMinus, 0⟩, ⟨.TokIntLit, 3⟩, ⟨.TokTimes, 0⟩, ⟨.TokLPar, 0⟩] ∧
     Parser.run (toks [⟨.TokMinus, 0⟩, ⟨.TokIntLit, 3⟩, ⟨.TokTimes, 0⟩, ⟨.TokLPar, 0⟩]) =
      some ⟨.node ⟨.TokMinus, 0⟩ (NewExpr ⟨.TokIntLit, 3⟩) .nil, none, []⟩) ∧
    (countKind .TokLPar [⟨.TokMinus, 0⟩, ⟨.TokIntLit, 3⟩, ⟨.TokTimes, 0⟩, ⟨.TokRPar, 0⟩] ≠
      countKind .TokRPar [⟨.TokMinus, 0⟩, ⟨.TokIntLit, 3⟩, ⟨.TokTimes, 0⟩, ⟨.TokRPar, 0⟩] ∧
     Parser.run (toks [⟨.TokMinus, 0⟩, ⟨.TokIntLit, 3⟩, ⟨.TokTimes, 0⟩, ⟨.TokRPar, 0⟩]) =
      some ⟨.node ⟨.TokMinus, 0⟩ (NewExpr ⟨.TokIntLit, 3⟩) .nil, none, []⟩) := by
  decide

/-- C3 (fails on the code). In the stream `3 * 4 5 6` the literal `4` is
followed by the literal `5`, and Parse returns a tree with no error: `Prog`
calls `Expr` with `defRbp - 1`, below the binding power 0 of a literal, so the
loop of `Expr` hands `5` to `Led` as an infix operator with the operand `6`. -/
theorem adjacent_literals_accepted :
    Parser.run (toks [⟨.TokIntLit, 3⟩, ⟨.TokTimes, 0⟩, ⟨.TokIntLit, 4⟩, ⟨.TokIntLit, 5⟩,
        ⟨.TokIntLit, 6⟩]) =
      some ⟨.node ⟨.TokIntLit, 5⟩ (NewExpr ⟨.TokIntLit, 6⟩)
        (.node ⟨.TokTimes, 0⟩ (NewExpr ⟨.TokIntLit, 4⟩) (NewExpr ⟨.TokIntLit, 3⟩)), none, []⟩ := by
  decide

/-- C4 (fails on the code). Parse accepts the stream `3 ( 4`: the loop of
`Expr` hands the left parenthesis, binding power 50, to `Led`, which builds a
node of kind `TokLPar`; `Eval` of the returned tree panics, whatever the
floating-point operations are. -/
theorem lpar_node_panics :
    Parser.run (toks [⟨.TokIntLit, 3⟩, ⟨.TokLPar, 0⟩, ⟨.TokIntLit, 4⟩]) =
      some ⟨.node ⟨.TokLPar, 0⟩ (NewExpr ⟨.TokIntLit, 4⟩) (NewExpr ⟨.TokIntLit, 3⟩), none, []⟩ ∧
    ∀ (F : Type) (ops : Float64Ops F),
      Expr.Eval ops (.node ⟨.TokLPar, 0⟩ (NewExpr ⟨.TokIntLit, 4⟩) (NewExpr ⟨.TokIntLit, 3⟩)) =
        none := by
  refine ⟨by decide, ?_⟩
  intro F ops
  rfl

/-- C5. For operators `A`, `B` of the table (no parenthesis) with
`bindPow A > bindPow B` and literals `x`, `y`, `z`, Parse of `x A y B z`
returns the tree `B(A(x, y), z)` and Parse of `x B y A z` returns the tree
`B(x, A(y, z))`, both without error and with the input used up. -/
theorem precedence_law (A B x y z : Token)
    (hA : isOperator A.tokType = true) (hB : isOperator B.tokType = true)
    (hx : isLiteral x.tokType = true) (hy : isLiteral y.tokType = true)
    (hz : isLiteral z.tokType = true) (hAB : bindPow B < bindPow A) :
    Parser.run (toks [x, A, y, B, z]) =
      some ⟨.node B (NewExpr z) (.node A (NewExpr y) (NewExpr x)), none, []⟩ ∧
    Parser.run (toks [x, B, y, A, z]) =
      some ⟨.node B (.node A (NewExpr z) (NewExpr y)) (NewExpr x), none, []⟩ := by
  obtain ⟨hA1, hA2, -, hA4, hA5, hA6⟩ := Parser.isOperator_bindPow hA
  obtain ⟨hB1, hB2, -, hB4, hB5, hB6⟩ := Parser.isOperator_bindPow hB
  have hBl : leftTab B.tokType = false := by
    cases hl : leftTab B.tokType with
    | false => rfl
    | true => have := hB6 hl; omega
  constructor
  · apply Parser.run_eq_of_fuel 11
    apply Parser.Parse_of_Expr
    simp only [toks, List.map]
    rw [Parser.Expr_literal 9 _ _ _ hx]
    rw [Parser.ExprLoop_op 8 (-1) _ _ A _ (.tok B :: [.tok z]) y .nil .nil hA4 hA5 (by omega)]
    · rw [Parser.ExprLoop_op 7 (-1) _ _ B _ [] z .nil .nil hB4 hB5 (by omega)]
      · rw [Parser.ExprLoop_nil]; rfl
      · rw [Parser.Expr_literal 5 _ _ _ hz, Parser.ExprLoop_nil]; rfl
    · rw [Parser.Expr_literal 6 _ _ _ hy, Parser.ExprLoop_low]
      · rfl
      · split <;> omega
  · apply Parser.run_eq_of_fuel 11
    apply Parser.Parse_of_Expr
    simp only [toks, List.map]
    rw [Parser.Expr_literal 9 _ _ _ hx]
    rw [Parser.ExprLoop_op 8 (-1) _ _ B _ [] A (NewExpr z) (NewExpr y) hB4 hB5 (by omega)]
    · rw [Parser.ExprLoop_nil]
    · rw [hBl, Parser.Expr_literal 6 _ _ _ hy]
      simp only [Bool.false_eq_true, if_false]
      rw [Parser.ExprLoop_op 5 _ _ _ A _ [] z .nil .nil hA4 hA5 (by omega)]
      · rw [Parser.ExprLoop_nil]; rfl
      · rw [Parser.Expr_literal 3 _ _ _ hz, Parser.ExprLoop_nil]; rfl

/-- The precedence law at `1 * 2 + 3` and `1 + 2 * 3`, the first two rows of
the test table. -/
theorem precedence_law_witness :
    Parser.run (toks [⟨.TokIntLit, 1⟩, ⟨.TokTimes, 0⟩, ⟨.TokIntLit, 2⟩, ⟨.TokPlus, 0⟩,
        ⟨.TokIntLit, 3⟩]) =
      some ⟨.node ⟨.TokPlus, 0⟩ (NewExpr ⟨.TokIntLit, 3⟩)
        (.node ⟨.TokTimes, 0⟩ (NewExpr ⟨.TokIntLit, 2⟩) (NewExpr ⟨.TokIntLit, 1⟩)), none, []⟩ ∧
    Parser.run (toks [⟨.TokIntLit, 1⟩, ⟨.TokPlus, 0⟩, ⟨.TokIntLit, 2⟩, ⟨.TokTimes, 0⟩,
        ⟨.TokIntLit, 3⟩]) =
      some ⟨.node ⟨.TokPlus, 0⟩
        (.node ⟨.TokTimes, 0⟩ (NewExpr ⟨.TokIntLit, 3⟩) (NewExpr ⟨.TokIntLit, 2⟩))
        (NewExpr ⟨.TokIntLit, 1⟩), none, []⟩ :=
  precedence_law ⟨.TokTimes, 0⟩ ⟨.TokPlus, 0⟩ ⟨.TokIntLit, 1⟩ ⟨.TokIntLit, 2⟩ ⟨.TokIntLit, 3⟩
    (by decide) (by decide) (by decide) (by decide) (by decide) (by decide)

/-- C6. The power operator is right-associative: a sequence of at least two
literals joined by `**` tokens parses, without error and with the input used
up, to the fully right-nested tree `x1 ** (x2 ** (... ** xn))`; in particular
`x ** y ** z` parses to `**(x, **(y, z))` and not to `**(**(x, y), z)`. -/
theorem pow_right_assoc (x : Token) (ps : List (Token × Token))
    (hx : isLiteral x.tokType = true)
    (hps : ∀ p ∈ ps, p.1.tokType = .TokPow ∧ isLiteral p.2.tokType = true)
    (hlen : ps ≠ []) :
    Parser.run (toks (opChain x ps)) = some ⟨rightNest x ps, none, []⟩ ∧
    (∀ p y q z, ps = [(p, y), (q, z)] →
      Parser.run (toks [x, p, y, q, z]) =
          some ⟨.node p (.node q (NewExpr z) (NewExpr y)) (NewExpr x), none, []⟩ ∧
        Parser.run (toks [x, p, y, q, z]) ≠
          some ⟨.node q (NewExpr z) (.node p (NewExpr y) (NewExpr x)), none, []⟩) := by
  have hrun : Parser.run (toks (opChain x ps)) = some ⟨rightNest x ps, none, []⟩ := by
    obtain ⟨N, hN⟩ := Parser.Expr_powChain ps x (-1) hx hps (by omega)
    obtain ⟨t, a, b, hnode⟩ := Parser.rightNest_node x ps
    apply Parser.run_eq_of_fuel N
    rw [hnode]
    apply Parser.Parse_of_Expr
    rw [← hnode]
    exact hN N (le_refl _)
  refine ⟨hrun, ?_⟩
  intro p y q z hpq
  subst hpq
  have h3 : Parser.run (toks [x, p, y, q, z]) =
      some ⟨.node p (.node q (NewExpr z) (NewExpr y)) (NewExpr x), none, []⟩ := hrun
  refine ⟨h3, ?_⟩
  rw [h3]
  intro hcontra
  simp [NewExpr] at hcontra

/-- Right-associativity at `2 ** 3 ** 4`. -/
theorem pow_right_assoc_witness :
    Parser.run (toks [⟨.TokIntLit, 2⟩, ⟨.TokPow, 0⟩, ⟨.TokIntLit, 3⟩, ⟨.TokPow, 0⟩,
        ⟨.TokIntLit, 4⟩]) =
      some ⟨.node ⟨.TokPow, 0⟩
        (.node ⟨.TokPow, 0⟩ (NewExpr ⟨.TokIntLit, 4⟩) (NewExpr ⟨.TokIntLit, 3⟩))
        (NewExpr ⟨.TokIntLit, 2⟩), none, []⟩ :=
  (pow_right_assoc ⟨.TokIntLit, 2⟩
    [(⟨.TokPow, 0⟩, ⟨.TokIntLit, 3⟩), (⟨.TokPow, 0⟩, ⟨.TokIntLit, 4⟩)]
    (by decide) (by decide) (by decide)).1

/-- C7. Parentheses override precedence and leave no node: for operators `A`,
`B` of the table (no parenthesis), whatever their binding powers, and literals
`x`, `y`, `z`, Parse of `x A ( y B z )` returns the tree `A(x, B(y, z))`
without error and with the input used up; no token of that tree is a
parenthesis. -/
theorem parens_override (A B x y z lp rp : Token)
    (hA : isOperator A.tokType = true) (hB : isOperator B.tokType = true)
    (hx : isLiteral x.tokType = true) (hy : isLiteral y.tokType = true)
    (hz : isLiteral z.tokType = true)
    (hlp : lp.tokType = .TokLPar) (hrp : rp.tokType = .TokRPar) :
    Parser.run (toks [x, A, lp, y, B, z, rp]) =
      some ⟨.node A (.node B (NewExpr z) (NewExpr y)) (NewExpr x), none, []⟩ ∧
    ∀ t ∈ Expr.inorder (.node A (.node B (NewExpr z) (NewExpr y)) (NewExpr x)),
      t.tokType ≠ .TokLPar ∧ t.tokType ≠ .TokRPar := by
  obtain ⟨hA1, hA2, hA3, hA4, hA5, -⟩ := Parser.isOperator_bindPow hA
  obtain ⟨hB1, hB2, hB3, hB4, hB5, -⟩ := Parser.isOperator_bindPow hB
  obtain ⟨-, hx1, -, hx2⟩ := Parser.isLiteral_bindPow hx
  obtain ⟨-, hy1, -, hy2⟩ := Parser.isLiteral_bindPow hy
  obtain ⟨-, hz1, -, hz2⟩ := Parser.isLiteral_bindPow hz
  constructor
  · apply Parser.run_eq_of_fuel 15
    apply Parser.Parse_of_Expr
    simp only [toks, List.map]
    rw [Parser.Expr_literal 13 _ _ _ hx]
    rw [Parser.ExprLoop_op 12 (-1) _ _ A _ [] B (NewExpr z) (NewExpr y) hA4 hA5 (by omega)]
    · rw [Parser.ExprLoop_nil]
    · rw [Parser.Expr_lpar 10 _ lp rp _ [] (.node B (NewExpr z) (NewExpr y)) hlp hrp]
      · rw [Parser.ExprLoop_nil]
      · rw [Parser.Expr_literal 8 _ _ _ hy]
        rw [Parser.ExprLoop_op 7 0 _ _ B _ [.tok rp] z .nil .nil hB4 hB5 (by omega)]
        · rw [Parser.ExprLoop_rpar _ _ _ _ _ _ hrp]; rfl
        · rw [Parser.Expr_literal 5 _ _ _ hz, Parser.ExprLoop_rpar _ _ _ _ _ _ hrp]; rfl
  · intro t ht
    simp [Expr.inorder, NewExpr] at ht
    rcases ht with rfl | rfl | rfl | rfl | rfl <;> constructor <;> assumption

/-- Parentheses at `3 * ( 4 + 5 )`, a row of the test table. -/
theorem parens_override_witness :
    Parser.run (toks [⟨.TokIntLit, 3⟩, ⟨.TokTimes, 0⟩, ⟨.TokLPar, 0⟩, ⟨.TokIntLit, 4⟩,
        ⟨.TokPlus, 0⟩, ⟨.TokIntLit, 5⟩, ⟨.TokRPar, 0⟩]) =
      some ⟨.node ⟨.TokTimes, 0⟩
        (.node ⟨.TokPlus, 0⟩ (NewExpr ⟨.TokIntLit, 5⟩) (NewExpr ⟨.TokIntLit, 4⟩))
        (NewExpr ⟨.TokIntLit, 3⟩), none, []⟩ :=
  (parens_override ⟨.TokTimes, 0⟩ ⟨.TokPlus, 0⟩ ⟨.TokIntLit, 3⟩ ⟨.TokIntLit, 4⟩
    ⟨.TokIntLit, 5⟩ ⟨.TokLPar, 0⟩ ⟨.TokRPar, 0⟩
    (by decide) (by decide) (by decide) (by decide) (by decide) (by decide) (by decide)).1

/-- C8 (fails on the code). Parse accepts the stream `3 4 5` and returns the
tree whose root is the literal `4` with the children `3` and `5`: a literal
node with two children, against the node-shape invariant. At the top level,
where `Expr` runs with `defRbp - 1`, a literal is taken as an infix operator. -/
theorem literal_node_with_children :
    Parser.run (toks [⟨.TokIntLit, 3⟩, ⟨.TokIntLit, 4⟩, ⟨.TokIntLit, 5⟩]) =
      some ⟨.node ⟨.TokIntLit, 4⟩ (NewExpr ⟨.TokIntLit, 5⟩) (NewExpr ⟨.TokIntLit, 3⟩), none, []⟩ ∧
    Expr.shapeOK
      (.node ⟨.TokIntLit, 4⟩ (NewExpr ⟨.TokIntLit, 5⟩) (NewExpr ⟨.TokIntLit, 3⟩)) = false := by
  decide

/-- C9. Parse returns on every input, and it returns the error "empty
expression" exactly when the first peek succeeds and delivers the
end-of-input marker: no input that starts with another token, or with a
lexical error, produces that error. -/
theorem empty_expression_iff (l : Lexer) :
    ∃ r, Parser.run l = some r ∧
      (r.err = some .emptyExpr ↔
        ∃ tok, Lexer.Peek l = .ok tok ∧ tok.tokType = .RuneEOF) := by
  by_cases hpk : ∃ tok, Lexer.Peek l = .ok tok ∧ tok.tokType = .RuneEOF
  · obtain ⟨tok, h1, h2⟩ := hpk
    refine ⟨⟨.nil, some .emptyExpr, l⟩, ?_, ?_⟩
    · unfold Parser.run Parser.Parse Parser.Prog
      rw [Parser.Expr_eof _ _ _ _ h1 h2]
    · simp only [true_iff]
      exact ⟨tok, h1, h2⟩
  · obtain ⟨r, hr⟩ := Parser.run_terminates l
    refine ⟨r, hr, ?_⟩
    simp only [hpk, iff_false]
    unfold Parser.run at hr
    rw [Parser.Parse_eq_Prog] at hr
    obtain ⟨r0, hE, h⟩ := Parser.Prog_cases hr
    obtain ⟨h0, h1⟩ := (Parser.result_inv _).2.2.1 _ _ _ hE
    rcases h with ⟨e, he, rfl⟩ | ⟨he, hx, rfl⟩ | ⟨-, -, c, rfl⟩ | ⟨-, -, t, -, -, rfl⟩ |
      ⟨-, -, t, -, -, rfl⟩
    · rw [he] at h0; exact h0
    · exact absurd (h1 he hx).2 hpk
    · simp
    · simp
    · simp

/-- C10. When the first token has a nonzero binding power and is not in
`unaryTab`, Parse returns the error "is not unary" with the kind of that
token, and no tree. -/
theorem not_unary_rejected (t : Token) (rest : Lexer)
    (hb : bindPow t ≠ 0) (hu : unaryTab t.tokType = false) :
    Parser.run (.tok t :: rest) = some ⟨.nil, some (.notUnary t.tokType), rest⟩ := by
  have h1 : t.tokType ≠ .RuneEOF := by
    intro h; apply hb; simp [bindPow, h, precTab, defRbp]
  have h2 : t.tokType ≠ .TokLPar := by
    intro h; rw [h] at hu; simp [unaryTab] at hu
  apply Parser.run_eq_of_fuel 2
  unfold Parser.Parse Parser.Prog
  rw [Parser.Expr]
  simp only [Lexer.Peek, Lexer.Lex, List.tail_cons]
  rw [if_neg h1, Parser.Nud, if_neg h2, if_pos (by simpa [defRbp] using hb), if_pos hu]

/-- The stream `* 3` of the test table is rejected with "is not unary". -/
theorem not_unary_rejected_witness :
    Parser.run (toks [⟨.TokTimes, 0⟩, ⟨.TokIntLit, 3⟩]) =
      some ⟨.nil, some (.notUnary .TokTimes), toks [⟨.TokIntLit, 3⟩]⟩ :=
  not_unary_rejected ⟨.TokTimes, 0⟩ (toks [⟨.TokIntLit, 3⟩]) (by decide) (by decide)

/-! ## Prefix operators, and what `Expr` consumes -/

namespace Parser

theorem isUnaryOp_bindPow {t : Token} (h : isUnaryOp t.tokType = true) :
    10 ≤ bindPow t ∧ bindPow t ≤ 20 ∧ t.tokType ≠ .TokLPar ∧ t.tokType ≠ .RuneEOF ∧
      unaryTab t.tokType = true := by
  obtain ⟨k, v⟩ := t
  cases k <;> simp [isUnaryOp, unaryTab] at h <;> simp [bindPow, precTab, unaryTab]

/-- The method `Expr` on a prefix operator: the operand is parsed at the binding
power of the operator, its error is not looked at, and the loop starts. -/
theorem Expr_unary (n : Nat) (rbp : Int) (u : Token) (l l1 : Lexer) (t : Token)
    (a b : Fxpratt.Expr) (err : Option Err) (hu : isUnaryOp u.tokType = true)
    (hE : Expr n (bindPow u) l = some ⟨.node t a b, err, l1⟩) :
    Expr (n + 2) rbp (.tok u :: l) =
      ExprLoop (n + 1) rbp (.node u (.node t a b) .nil) (.node u (.node t a b) .nil) l1 := by
  obtain ⟨h1, -, h3, h4, h5⟩ := isUnaryOp_bindPow hu
  rw [Expr]
  simp only [Lexer.Peek, Lexer.Lex, List.tail_cons]
  rw [if_neg h4, Nud, if_neg h3, if_pos (by simp [defRbp]; omega), if_neg (by simp [h5]), hE]

theorem ConsumedNoEOF_refl (l : Lexer) : ConsumedNoEOF l l :=
  ⟨[], rfl, fun _ h => absurd h (List.not_mem_nil _)⟩

theorem ConsumedNoEOF_trans {l1 l2 l3 : Lexer} (h12 : ConsumedNoEOF l1 l2)
    (h23 : ConsumedNoEOF l2 l3) : ConsumedNoEOF l1 l3 := by
  obtain ⟨p, hp, hp2⟩ := h12
  obtain ⟨q, hq, hq2⟩ := h23
  refine ⟨p ++ q, by rw [hp, hq, List.append_assoc], fun it hit => ?_⟩
  rcases List.mem_append.1 hit with h | h
  · exact hp2 it h
  · exact hq2 it h

theorem ConsumedNoEOF_Lex {l : Lexer} {tok : Token} (h : Lexer.Peek l = .ok tok)
    (hne : tok.tokType ≠ .RuneEOF) : ConsumedNoEOF l (Lexer.Lex l) := by
  cases l with
  | nil => simp [Lexer.Peek, eofTok] at h; subst h; simp at hne
  | cons a rest =>
    cases a with
    | bad c => simp [Lexer.Peek] at h
    | tok t =>
      simp [Lexer.Peek] at h
      subst h
      exact ⟨[.tok t], rfl, fun it hit => ⟨t, by simpa using hit, hne⟩⟩

theorem ConsumedNoEOF_matchTok (k : TokType) (l : Lexer) (hk : k ≠ .RuneEOF) :
    ConsumedNoEOF l (matchTok k l).2.2.2 := by
  unfold matchTok
  cases hpk : Lexer.Peek l with
  | error c => exact ConsumedNoEOF_refl l
  | ok tok =>
    by_cases h : tok.tokType ≠ k
    · simp only []; rw [if_pos h]; exact ConsumedNoEOF_refl l
    · simp only []; rw [if_neg h]
      have h2 : tok.tokType = k := by simpa using h
      exact ConsumedNoEOF_Lex hpk (by rw [h2]; exact hk)

/-- What the parsing functions consume holds no end-of-input marker, and `Expr`
and its loop return without error only in front of the end of the input, of a
right parenthesis or of a token that binds no more than `rbp`. -/
theorem stop_inv (n : Nat) :
    (∀ tok l r, Nud n tok l = some r → ConsumedNoEOF l r.l) ∧
    (∀ left tok l r, Led n left tok l = some r → ConsumedNoEOF l r.l) ∧
    (∀ rbp l r, Expr n rbp l = some r → ConsumedNoEOF l r.l ∧
      (r.err = none → ∃ tok, Lexer.Peek r.l = .ok tok ∧
        (tok.tokType = .RuneEOF ∨ tok.tokType = .TokRPar ∨ bindPow tok ≤ rbp))) ∧
    (∀ rbp left e l r, ExprLoop n rbp left e l = some r → ConsumedNoEOF l r.l ∧
      (r.err = none → ∃ tok, Lexer.Peek r.l = .ok tok ∧
        (tok.tokType = .RuneEOF ∨ tok.tokType = .TokRPar ∨ bindPow tok ≤ rbp))) := by
  induction n with
  | zero =>
    refine ⟨?_, ?_, ?_, ?_⟩ <;> intros <;> simp_all [Nud, Led, Expr, ExprLoop]
  | succ n ih =>
    obtain ⟨ihN, ihL, ihE, ihP⟩ := ih
    refine ⟨?_, ?_, ?_, ?_⟩
    · intro tok l r h
      rw [Nud] at h
      split at h
      · split at h
        · simp at h
        · rename_i r0 hE
          have h0 := (ihE _ _ _ hE).1
          split at h
          · simp at h; subst h; exact h0
          · have hm := ConsumedNoEOF_matchTok .TokRPar r0.l (by simp)
            split at h <;> rename_i hmt <;> rw [hmt] at hm <;> simp at h <;> subst h <;>
              exact ConsumedNoEOF_trans h0 hm
      · split at h
        · split at h
          · simp at h; subst h; exact ConsumedNoEOF_refl l
          · split at h
            · simp at h
            · rename_i r0 hE
              have h0 := (ihE _ _ _ hE).1
              split at h <;> simp at h <;> subst h <;> exact h0
        · simp at h; subst h; exact ConsumedNoEOF_refl l
    · intro left tok l r h
      rw [Led] at h
      split at h
      · simp at h
      · rename_i r0 hE
        have h0 := (ihE _ _ _ hE).1
        split at h
        · simp at h; subst h; exact h0
        · split at h <;> simp at h <;> subst h <;> exact h0
    · intro rbp l r h
      rw [Expr] at h
      split at h
      · simp at h; subst h; exact ⟨ConsumedNoEOF_refl l, by simp⟩
      · rename_i tok hpk
        split at h
        · rename_i heof
          simp at h; subst h
          exact ⟨ConsumedNoEOF_refl l, fun _ => ⟨tok, hpk, Or.inl heof⟩⟩
        · rename_i hne
          have hl := ConsumedNoEOF_Lex hpk hne
          split at h
          · simp at h
          · rename_i r0 hN
            have h0 := ConsumedNoEOF_trans hl (ihN _ _ _ hN)
            split at h
            · simp at h; subst h; exact ⟨h0, by simp⟩
            · obtain ⟨h1, h2⟩ := ihP _ _ _ _ _ h
              exact ⟨ConsumedNoEOF_trans h0 h1, h2⟩
    · intro rbp left e l r h
      rw [ExprLoop] at h
      split at h
      · simp at h; subst h; exact ⟨ConsumedNoEOF_refl l, by simp⟩
      · rename_i tok hpk
        split at h
        · rename_i hstop
          simp at h; subst h
          refine ⟨ConsumedNoEOF_refl l, fun _ => ⟨tok, hpk, ?_⟩⟩
          rcases hstop with h1 | h1
          · exact Or.inl h1
          · exact Or.inr (Or.inl h1)
        · rename_i hne
          have hl := ConsumedNoEOF_Lex hpk (fun hh => hne (Or.inl hh))
          split at h
          · rename_i hlow
            simp at h; subst h
            exact ⟨ConsumedNoEOF_refl l, fun _ => ⟨tok, hpk, Or.inr (Or.inr hlow)⟩⟩
          · split at h
            · simp at h
            · rename_i r0 hN
              have h0 := ConsumedNoEOF_trans hl (ihL _ _ _ _ hN)
              split at h
              · simp at h; subst h; exact ⟨h0, by simp⟩
              · obtain ⟨h1, h2⟩ := ihP _ _ _ _ _ h
                exact ⟨ConsumedNoEOF_trans h0 h1, h2⟩

end Parser

/-! ## The claims on errors of the source, termination, evaluation and the driver -/

/-- C11 (fails on the code). The token source delivers `-` and then fails
with the error 7; Parse returns "unary operator without operand", not the
error of the source: `Nud` tests the tree that `Expr` returns and never its
error. -/
theorem lexer_error_replaced :
    Lexer.Peek [.bad 7] = .error 7 ∧
    Parser.run [.tok ⟨.TokMinus, 0⟩, .bad 7] = some ⟨.nil, some .unaryNoOperand, [.bad 7]⟩ :=
  ⟨rfl, by decide⟩

/-- C12. Parse terminates on every input: with `2 * length + 1` units of fuel,
or more, it returns, always the same result, and the lexer it leaves is no
longer than the input. The bound is linear in the number of remaining items
because each `Lex` that follows a peek of a token other than end-of-input
shortens the lexer by one. -/
theorem parse_terminates (l : Lexer) :
    (∃ r, Parser.run l = some r ∧ r.l.length ≤ l.length ∧
      ∀ n, 2 * l.length + 1 ≤ n → Parser.Parse n l = some r) ∧
    (∀ tok, Lexer.Peek l = .ok tok → tok.tokType ≠ .RuneEOF →
      (Lexer.Lex l).length < l.length) := by
  constructor
  · obtain ⟨r, hr⟩ := Parser.run_terminates l
    refine ⟨r, hr, ?_, fun n hn => Parser.Parse_fuel_mono hn hr⟩
    unfold Parser.run at hr
    rw [Parser.Parse_eq_Prog] at hr
    obtain ⟨r0, hE, h⟩ := Parser.Prog_cases hr
    have h0 := (Parser.length_le _).2.2.1 _ _ _ hE
    rcases h with ⟨e, -, rfl⟩ | ⟨-, -, rfl⟩ | ⟨-, -, c, rfl⟩ | ⟨-, -, t, -, -, rfl⟩ |
      ⟨-, -, t, -, -, rfl⟩
    · exact h0
    · exact h0
    · exact h0
    · exact h0
    · exact le_trans (Parser.Lex_length_le _) h0
  · intro tok hpk hne
    have := Parser.Lex_length_of_peek hpk hne
    omega

/-- C13. For a node whose token is relational (`>`, `<`, `>=`, `<=`) or
logical (`|`, `&`, `^`, `!`), whatever values `lV` and `rV` the children
evaluate to, `Eval` returns the constant 1 or the constant 0; for a relational
token it returns 1 exactly when the comparison holds between `lV` and `rV`
(the constants 1 and 0 being different). -/
theorem eval_relational_logical {F : Type} (ops : Float64Ops F) (tok : Token)
    (r l : Expr) (rV lV : F)
    (hk : isRelational tok.tokType = true ∨ isLogical tok.tokType = true)
    (hr : Expr.Eval ops r = some rV) (hl : Expr.Eval ops l = some lV) :
    (Expr.Eval ops (.node tok r l) = some ops.one ∨
      Expr.Eval ops (.node tok r l) = some ops.zero) ∧
    (isRelational tok.tokType = true → ops.one ≠ ops.zero →
      (Expr.Eval ops (.node tok r l) = some ops.one ↔
        relHolds ops tok.tokType lV rV = true)) := by
  obtain ⟨k, v⟩ := tok
  have hE : Expr.Eval ops (.node ⟨k, v⟩ r l) = evalTok ops ⟨k, v⟩ lV rV := by
    simp [Expr.Eval, hr, hl]
  rw [hE]
  constructor
  · cases k <;> simp [isRelational, isLogical] at hk <;> simp only [evalTok] <;>
      split <;> simp
  · intro hrel hne
    have hne2 : ops.zero ≠ ops.one := fun h => hne h.symm
    cases k <;> simp [isRelational] at hrel <;> simp only [evalTok, relHolds] <;>
      split <;> simp_all

/-- The comparison `1 > -5` of the test table, in binary64. -/
theorem eval_relational_logical_witness :
    (Expr.Eval binary64Ops (.node ⟨.TokGT, 0⟩
        (.node ⟨.TokMinus, 0⟩ (NewExpr ⟨.TokIntLit, 5⟩) .nil) (NewExpr ⟨.TokIntLit, 1⟩)) =
        some binary64Ops.one ∨
      Expr.Eval binary64Ops (.node ⟨.TokGT, 0⟩
        (.node ⟨.TokMinus, 0⟩ (NewExpr ⟨.TokIntLit, 5⟩) .nil) (NewExpr ⟨.TokIntLit, 1⟩)) =
        some binary64Ops.zero) ∧
    (isRelational TokType.TokGT = true → binary64Ops.one ≠ binary64Ops.zero →
      (Expr.Eval binary64Ops (.node ⟨.TokGT, 0⟩
        (.node ⟨.TokMinus, 0⟩ (NewExpr ⟨.TokIntLit, 5⟩) .nil) (NewExpr ⟨.TokIntLit, 1⟩)) =
        some binary64Ops.one ↔
        relHolds binary64Ops TokType.TokGT (binary64Ops.ofInt 1)
          (binary64Ops.sub binary64Ops.zero (binary64Ops.ofInt 5)) = true)) :=
  eval_relational_logical binary64Ops ⟨.TokGT, 0⟩
    (.node ⟨.TokMinus, 0⟩ (NewExpr ⟨.TokIntLit, 5⟩) .nil) (NewExpr ⟨.TokIntLit, 1⟩)
    (binary64Ops.sub binary64Ops.zero (binary64Ops.ofInt 5)) (binary64Ops.ofInt 1)
    (Or.inl (by decide)) rfl rfl

/-- C14 (fails on the code). The stream `+ 0 * - 1` parses to the `+` node
over `r = 0 * (-1)`. In binary64 `r` evaluates to `-0`, while the `+` node
evaluates to `0 + (-0) = +0` and `-(-(r))` to `0 - (0 - (-0)) = +0`: prefix
plus and double negation are not the identity. The difference shows in a
result: `1 / r` is the negative infinity, `1 / +r` the positive one. -/
theorem prefix_plus_loses_sign :
    Parser.run (toks [⟨.TokPlus, 0⟩, ⟨.TokIntLit, 0⟩, ⟨.TokTimes, 0⟩, ⟨.TokMinus, 0⟩,
        ⟨.TokIntLit, 1⟩]) =
      some ⟨.node ⟨.TokPlus, 0⟩ (.node ⟨.TokTimes, 0⟩
        (.node ⟨.TokMinus, 0⟩ (NewExpr ⟨.TokIntLit, 1⟩) .nil) (NewExpr ⟨.TokIntLit, 0⟩)) .nil,
        none, []⟩ ∧
    Expr.Eval binary64Ops (.node ⟨.TokTimes, 0⟩
        (.node ⟨.TokMinus, 0⟩ (NewExpr ⟨.TokIntLit, 1⟩) .nil) (NewExpr ⟨.TokIntLit, 0⟩)) =
      some (.fin true 0) ∧
    Expr.Eval binary64Ops (.node ⟨.TokPlus, 0⟩ (.node ⟨.TokTimes, 0⟩
        (.node ⟨.TokMinus, 0⟩ (NewExpr ⟨.TokIntLit, 1⟩) .nil) (NewExpr ⟨.TokIntLit, 0⟩)) .nil) =
      some (.fin false 0) ∧
    Expr.Eval binary64Ops (.node ⟨.TokMinus, 0⟩ (.node ⟨.TokMinus, 0⟩ (.node ⟨.TokTimes, 0⟩
        (.node ⟨.TokMinus, 0⟩ (NewExpr ⟨.TokIntLit, 1⟩) .nil) (NewExpr ⟨.TokIntLit, 0⟩)) .nil)
        .nil) =
      some (.fin false 0) ∧
    Expr.Eval binary64Ops (.node ⟨.TokDivide, 0⟩ (.node ⟨.TokTimes, 0⟩
        (.node ⟨.TokMinus, 0⟩ (NewExpr ⟨.TokIntLit, 1⟩) .nil) (NewExpr ⟨.TokIntLit, 0⟩))
        (NewExpr ⟨.TokIntLit, 1⟩)) =
      some (.inf true) ∧
    Expr.Eval binary64Ops (.node ⟨.TokDivide, 0⟩ (.node ⟨.TokPlus, 0⟩ (.node ⟨.TokTimes, 0⟩
        (.node ⟨.TokMinus, 0⟩ (NewExpr ⟨.TokIntLit, 1⟩) .nil) (NewExpr ⟨.TokIntLit, 0⟩)) .nil)
        (NewExpr ⟨.TokIntLit, 1⟩)) =
      some (.inf false) := by
  decide!

/-- C14, as amended. A nil child evaluates as 0: `Eval` of nil is 0, and for
every tree `r` that evaluates to a value `rV`, whatever the arithmetic, `Eval`
of a `-` node with no left child and right child `r` is `0 - rV`, `Eval` of a
`+` node with no left child and right child `r` is `0 + rV`, and `Eval` of
`-(-(r))` is `0 - (0 - rV)`. Prefix plus and double negation give back the
value of `r` wherever `0 + rV = rV` and `0 - (0 - rV) = rV`. -/
theorem eval_prefix_sign {F : Type} (ops : Float64Ops F) (m p : Token) (r : Expr) (rV : F)
    (hm : m.tokType = .TokMinus) (hp : p.tokType = .TokPlus)
    (hr : Expr.Eval ops r = some rV) :
    Expr.Eval ops .nil = some ops.zero ∧
    Expr.Eval ops (.node m r .nil) = some (ops.sub ops.zero rV) ∧
    Expr.Eval ops (.node p r .nil) = some (ops.add ops.zero rV) ∧
    Expr.Eval ops (.node m (.node m r .nil) .nil) =
      some (ops.sub ops.zero (ops.sub ops.zero rV)) ∧
    (ops.add ops.zero rV = rV → Expr.Eval ops (.node p r .nil) = Expr.Eval ops r) ∧
    (ops.sub ops.zero (ops.sub ops.zero rV) = rV →
      Expr.Eval ops (.node m (.node m r .nil) .nil) = Expr.Eval ops r) := by
  have h0 : Expr.Eval ops .nil = some ops.zero := rfl
  have h1 : Expr.Eval ops (.node m r .nil) = some (ops.sub ops.zero rV) := by
    simp [Expr.Eval, hr, evalTok, hm]
  have h2 : Expr.Eval ops (.node p r .nil) = some (ops.add ops.zero rV) := by
    simp [Expr.Eval, hr, evalTok, hp]
  have h3 : Expr.Eval ops (.node m (.node m r .nil) .nil) =
      some (ops.sub ops.zero (ops.sub ops.zero rV)) := by
    simp [Expr.Eval, hr, evalTok, hm]
  refine ⟨h0, h1, h2, h3, fun h => ?_, fun h => ?_⟩
  · rw [h2, hr, h]
  · rw [h3, hr, h]

/-- The rows `-(2)` and `--(2)` of the test table, and `+(2)`, in binary64:
the values are -2, 2 and 2. -/
theorem eval_prefix_sign_witness :
    Expr.Eval binary64Ops (NewExpr ⟨.TokIntLit, 2⟩) = some (.fin false 2) ∧
    Expr.Eval binary64Ops (.node ⟨.TokMinus, 0⟩ (NewExpr ⟨.TokIntLit, 2⟩) .nil) =
      some (.fin true 2) ∧
    Expr.Eval binary64Ops (.node ⟨.TokPlus, 0⟩ (NewExpr ⟨.TokIntLit, 2⟩) .nil) =
      Expr.Eval binary64Ops (NewExpr ⟨.TokIntLit, 2⟩) ∧
    Expr.Eval binary64Ops
        (.node ⟨.TokMinus, 0⟩ (.node ⟨.TokMinus, 0⟩ (NewExpr ⟨.TokIntLit, 2⟩) .nil) .nil) =
      Expr.Eval binary64Ops (NewExpr ⟨.TokIntLit, 2⟩) :=
  have h := eval_prefix_sign binary64Ops ⟨.TokMinus, 0⟩ ⟨.TokPlus, 0⟩ (NewExpr ⟨.TokIntLit, 2⟩)
    (.fin false 2) rfl rfl (by decide!)
  ⟨by decide!, h.2.1.trans (by decide!), h.2.2.2.2.1 (by decide!), h.2.2.2.2.2 (by decide!)⟩


/-- C15. Operators of equal binding power that are not right-associative fold
to the left: for operators `A`, `B` of the table (no parenthesis) with
`bindPow A = bindPow B`, neither being `**`, and literals `x`, `y`, `z`, Parse
of `x A y B z` returns the tree `B(A(x, y), z)`, without error and with the
input used up. That `B` is not `**` follows from the equal binding powers. -/
theorem equal_power_folds_left (A B x y z : Token)
    (hA : isOperator A.tokType = true) (hB : isOperator B.tokType = true)
    (hx : isLiteral x.tokType = true) (hy : isLiteral y.tokType = true)
    (hz : isLiteral z.tokType = true) (hAB : bindPow A = bindPow B)
    (hAp : A.tokType ≠ .TokPow) :
    Parser.run (toks [x, A, y, B, z]) =
      some ⟨.node B (NewExpr z) (.node A (NewExpr y) (NewExpr x)), none, []⟩ := by
  obtain ⟨hA1, hA2, -, hA4, hA5, -⟩ := Parser.isOperator_bindPow hA
  obtain ⟨hB1, hB2, -, hB4, hB5, -⟩ := Parser.isOperator_bindPow hB
  have hAl : leftTab A.tokType = false := by
    cases hk : A.tokType <;> simp_all [leftTab]
  apply Parser.run_eq_of_fuel 11
  apply Parser.Parse_of_Expr
  simp only [toks, List.map]
  rw [Parser.Expr_literal 9 _ _ _ hx]
  rw [Parser.ExprLoop_op 8 (-1) _ _ A _ (.tok B :: [.tok z]) y .nil .nil hA4 hA5 (by omega)]
  · rw [Parser.ExprLoop_op 7 (-1) _ _ B _ [] z .nil .nil hB4 hB5 (by omega)]
    · rw [Parser.ExprLoop_nil]; rfl
    · rw [Parser.Expr_literal 5 _ _ _ hz, Parser.ExprLoop_nil]; rfl
  · rw [Parser.Expr_literal 6 _ _ _ hy, Parser.ExprLoop_low]
    · rfl
    · rw [hAl]; simp only [Bool.false_eq_true, if_false]; omega

/-- Left folding at `1 - 2 + 3`. -/
theorem equal_power_folds_left_witness :
    Parser.run (toks [⟨.TokIntLit, 1⟩, ⟨.TokMinus, 0⟩, ⟨.TokIntLit, 2⟩, ⟨.TokPlus, 0⟩,
        ⟨.TokIntLit, 3⟩]) =
      some ⟨.node ⟨.TokPlus, 0⟩ (NewExpr ⟨.TokIntLit, 3⟩)
        (.node ⟨.TokMinus, 0⟩ (NewExpr ⟨.TokIntLit, 2⟩) (NewExpr ⟨.TokIntLit, 1⟩)), none, []⟩ :=
  equal_power_folds_left ⟨.TokMinus, 0⟩ ⟨.TokPlus, 0⟩ ⟨.TokIntLit, 1⟩ ⟨.TokIntLit, 2⟩
    ⟨.TokIntLit, 3⟩ (by decide) (by decide) (by decide) (by decide) (by decide) (by decide)
    (by decide)

/-- C16. The operand of a prefix operator is parsed at the table binding power
of that operator: for a prefix operator `U` (`+`, `-`, `!`, `^`), an operator
`B` of the table (no parenthesis) and literals `x`, `y`, Parse of `U x B y`
returns `U(B(x, y))` when `bindPow B > bindPow U` and `B(U(x), y)` when
`bindPow B <= bindPow U`, without error and with the input used up. -/
theorem unary_operand_power (U B x y : Token)
    (hU : isUnaryOp U.tokType = true) (hB : isOperator B.tokType = true)
    (hx : isLiteral x.tokType = true) (hy : isLiteral y.tokType = true) :
    (bindPow U < bindPow B →
      Parser.run (toks [U, x, B, y]) =
        some ⟨.node U (.node B (NewExpr y) (NewExpr x)) .nil, none, []⟩) ∧
    (bindPow B ≤ bindPow U →
      Parser.run (toks [U, x, B, y]) =
        some ⟨.node B (NewExpr y) (.node U (NewExpr x) .nil), none, []⟩) := by
  obtain ⟨hB1, hB2, -, hB4, hB5, -⟩ := Parser.isOperator_bindPow hB
  obtain ⟨hU1, hU2, -, -, -⟩ := Parser.isUnaryOp_bindPow hU
  constructor
  · intro hlt
    apply Parser.run_eq_of_fuel 9
    apply Parser.Parse_of_Expr
    simp only [toks, List.map]
    rw [Parser.Expr_unary 7 (-1) U _ [] B (NewExpr y) (NewExpr x) none hU]
    · rw [Parser.ExprLoop_nil]
    · rw [Parser.Expr_literal 5 _ _ _ hx]
      rw [Parser.ExprLoop_op 4 _ _ _ B _ [] y .nil .nil hB4 hB5 hlt]
      · rw [Parser.ExprLoop_nil]; rfl
      · rw [Parser.Expr_literal 2 _ _ _ hy, Parser.ExprLoop_nil]; rfl
  · intro hle
    apply Parser.run_eq_of_fuel 9
    apply Parser.Parse_of_Expr
    simp only [toks, List.map]
    rw [Parser.Expr_unary 7 (-1) U _ (.tok B :: [.tok y]) x .nil .nil none hU]
    · rw [Parser.ExprLoop_op 6 (-1) _ _ B _ [] y .nil .nil hB4 hB5 (by omega)]
      · rw [Parser.ExprLoop_nil]; rfl
      · rw [Parser.Expr_literal 4 _ _ _ hy, Parser.ExprLoop_nil]; rfl
    · rw [Parser.Expr_literal 5 _ _ _ hx, Parser.ExprLoop_low _ _ _ _ _ hle]; rfl

/-- The streams `- 1 * 2`, `! 1 + 2` and `- 1 + 2`. -/
theorem unary_operand_power_witness :
    Parser.run (toks [⟨.TokMinus, 0⟩, ⟨.TokIntLit, 1⟩, ⟨.TokTimes, 0⟩, ⟨.TokIntLit, 2⟩]) =
      some ⟨.node ⟨.TokMinus, 0⟩
        (.node ⟨.TokTimes, 0⟩ (NewExpr ⟨.TokIntLit, 2⟩) (NewExpr ⟨.TokIntLit, 1⟩)) .nil,
        none, []⟩ ∧
    Parser.run (toks [⟨.TokNeg, 0⟩, ⟨.TokIntLit, 1⟩, ⟨.TokPlus, 0⟩, ⟨.TokIntLit, 2⟩]) =
      some ⟨.node ⟨.TokNeg, 0⟩
        (.node ⟨.TokPlus, 0⟩ (NewExpr ⟨.TokIntLit, 2⟩) (NewExpr ⟨.TokIntLit, 1⟩)) .nil,
        none, []⟩ ∧
    Parser.run (toks [⟨.TokMinus, 0⟩, ⟨.TokIntLit, 1⟩, ⟨.TokPlus, 0⟩, ⟨.TokIntLit, 2⟩]) =
      some ⟨.node ⟨.TokPlus, 0⟩ (NewExpr ⟨.TokIntLit, 2⟩)
        (.node ⟨.TokMinus, 0⟩ (NewExpr ⟨.TokIntLit, 1⟩) .nil), none, []⟩ :=
  ⟨(unary_operand_power ⟨.TokMinus, 0⟩ ⟨.TokTimes, 0⟩ ⟨.TokIntLit, 1⟩ ⟨.TokIntLit, 2⟩
      (by decide) (by decide) (by decide) (by decide)).1 (by decide),
   (unary_operand_power ⟨.TokNeg, 0⟩ ⟨.TokPlus, 0⟩ ⟨.TokIntLit, 1⟩ ⟨.TokIntLit, 2⟩
      (by decide) (by decide) (by decide) (by decide)).1 (by decide),
   (unary_operand_power ⟨.TokMinus, 0⟩ ⟨.TokPlus, 0⟩ ⟨.TokIntLit, 1⟩ ⟨.TokIntLit, 2⟩
      (by decide) (by decide) (by decide) (by decide)).2 (by decide)⟩

/-- C17. Whenever `Expr` returns without error, the next token of the stream
is the end-of-input marker, a right parenthesis, or a token whose binding
power is at most `rbp`. No item `Expr` consumed is the end-of-input marker, and
its loop leaves both a right parenthesis and the end-of-input marker in the
stream when it meets them. -/
theorem Expr_postcondition (n : Nat) (rbp : Int) (l : Lexer) (r : Res)
    (h : Parser.Expr n rbp l = some r) :
    (r.err = none → ∃ tok, Lexer.Peek r.l = .ok tok ∧
      (tok.tokType = .RuneEOF ∨ tok.tokType = .TokRPar ∨ bindPow tok ≤ rbp)) ∧
    ConsumedNoEOF l r.l ∧
    (∀ (m : Nat) (left e : Expr) (t : Token) (rest : Lexer),
      t.tokType = .RuneEOF ∨ t.tokType = .TokRPar →
      Parser.ExprLoop (m + 1) rbp left e (.tok t :: rest) = some ⟨e, none, .tok t :: rest⟩) ∧
    (∀ (m : Nat) (left e : Expr), Parser.ExprLoop (m + 1) rbp left e [] = some ⟨e, none, []⟩) := by
  obtain ⟨h1, h2⟩ := (Parser.stop_inv n).2.2.1 rbp l r h
  refine ⟨h2, h1, ?_, fun m left e => Parser.ExprLoop_nil m rbp left e⟩
  intro m left e t rest ht
  rw [Parser.ExprLoop]
  simp only [Lexer.Peek]
  rw [if_pos ht]

/-- The operand `4 + 5` of `3 * ( 4 + 5 )`: `Expr` stops in front of the right
parenthesis. -/
theorem Expr_postcondition_witness :
    (none = (none : Option Err) → ∃ tok, Lexer.Peek (toks [⟨.TokRPar, 0⟩]) = .ok tok ∧
      (tok.tokType = .RuneEOF ∨ tok.tokType = .TokRPar ∨ bindPow tok ≤ 0)) ∧
    ConsumedNoEOF (toks [⟨.TokIntLit, 4⟩, ⟨.TokPlus, 0⟩, ⟨.TokIntLit, 5⟩, ⟨.TokRPar, 0⟩])
      (toks [⟨.TokRPar, 0⟩]) :=
  ⟨(Expr_postcondition 6 0
      (toks [⟨.TokIntLit, 4⟩, ⟨.TokPlus, 0⟩, ⟨.TokIntLit, 5⟩, ⟨.TokRPar, 0⟩])
      ⟨.node ⟨.TokPlus, 0⟩ (NewExpr ⟨.TokIntLit, 5⟩) (NewExpr ⟨.TokIntLit, 4⟩), none,
        toks [⟨.TokRPar, 0⟩]⟩ (by decide)).1,
   (Expr_postcondition 6 0
      (toks [⟨.TokIntLit, 4⟩, ⟨.TokPlus, 0⟩, ⟨.TokIntLit, 5⟩, ⟨.TokRPar, 0⟩])
      ⟨.node ⟨.TokPlus, 0⟩ (NewExpr ⟨.TokIntLit, 5⟩) (NewExpr ⟨.TokIntLit, 4⟩), none,
        toks [⟨.TokRPar, 0⟩]⟩ (by decide)).2.1⟩

/-- C18 (fails on the code). The literal `4`, binding power 0, is handed to
`Led` at the top level, where `Expr` runs with `defRbp - 1`: for `3 4` Parse
returns the error "missing operand" that only `Led` raises, naming the kind of
the literal; for `1 2 3` Parse returns the tree that `Led` built around the
literal `2`. -/
theorem literal_taken_by_led :
    bindPow ⟨.TokIntLit, 4⟩ = 0 ∧
    Parser.run (toks [⟨.TokIntLit, 3⟩, ⟨.TokIntLit, 4⟩]) =
      some ⟨.nil, some (.missingOperand .TokIntLit), []⟩ ∧
    Parser.run (toks [⟨.TokIntLit, 1⟩, ⟨.TokIntLit, 2⟩, ⟨.TokIntLit, 3⟩]) =
      some ⟨.node ⟨.TokIntLit, 2⟩ (NewExpr ⟨.TokIntLit, 3⟩) (NewExpr ⟨.TokIntLit, 1⟩),
        none, []⟩ := by
  decide

/-- C19 (fails on the code). Parse accepts the stream `! 3 +` and returns the
tree `!(3)`: the token `+` was consumed and is in no node, so the in-order
traversal of the tree is not the input without its parentheses. -/
theorem token_dropped :
    Parser.run (toks [⟨.TokNeg, 0⟩, ⟨.TokIntLit, 3⟩, ⟨.TokPlus, 0⟩]) =
      some ⟨.node ⟨.TokNeg, 0⟩ (NewExpr ⟨.TokIntLit, 3⟩) .nil, none, []⟩ ∧
    Expr.inorder (.node ⟨.TokNeg, 0⟩ (NewExpr ⟨.TokIntLit, 3⟩) .nil) ≠
      stripped [⟨.TokNeg, 0⟩, ⟨.TokIntLit, 3⟩, ⟨.TokPlus, 0⟩] ∧
    (Expr.inorder (.node ⟨.TokNeg, 0⟩ (NewExpr ⟨.TokIntLit, 3⟩) .nil)).length = 2 ∧
    (stripped [⟨.TokNeg, 0⟩, ⟨.TokIntLit, 3⟩, ⟨.TokPlus, 0⟩]).length = 3 := by
  decide

/-- C20. Parse returns on every input, and it returns either an error and no
tree, or a tree and no error; in the second case `Expr` returned that tree
without error and the next token after it was the end-of-input marker, which
`Prog` consumed. -/
theorem parse_error_xor_tree (l : Lexer) :
    ∃ r, Parser.run l = some r ∧
      ((∃ e, r.err = some e ∧ r.expr = .nil) ∨
       (r.err = none ∧ r.expr ≠ .nil ∧
        ∃ r0 t, Parser.Expr (2 * l.length + 1) (defRbp - 1) l = some r0 ∧ r0.err = none ∧
          r0.expr = r.expr ∧ Lexer.Peek r0.l = .ok t ∧ t.tokType = .RuneEOF ∧
          r.l = Lexer.Lex r0.l)) := by
  obtain ⟨r, hr⟩ := Parser.run_terminates l
  refine ⟨r, hr, ?_⟩
  unfold Parser.run at hr
  rw [Parser.Parse_eq_Prog] at hr
  obtain ⟨r0, hE, h⟩ := Parser.Prog_cases hr
  rcases h with ⟨e, -, rfl⟩ | ⟨-, -, rfl⟩ | ⟨-, -, c, rfl⟩ | ⟨-, -, t, -, -, rfl⟩ |
    ⟨he, hx, t, hpk, hk, rfl⟩
  · exact Or.inl ⟨_, rfl, rfl⟩
  · exact Or.inl ⟨_, rfl, rfl⟩
  · exact Or.inl ⟨_, rfl, rfl⟩
  · exact Or.inl ⟨_, rfl, rfl⟩
  · exact Or.inr ⟨rfl, hx, r0, t, hE, he, rfl, hpk, hk, rfl⟩

end Fxpratt
